import Mathlib

/-!
# Verification of the arrow-rs take kernel and parquet column reader core

Shallow embedding of:
* `arrow/src/compute/kernels/take.rs` — the `take` gather kernel and its
  per-variant routines (`take_primitive`, `take_string`, `take_binary`,
  `take_fixed_size_binary`, `take_list`, `take_dict`, the Null short-circuit),
* `parquet/src/column/reader.rs` — `GenericColumnReader` (`has_next`,
  `read_new_page`, `parse_v1_level`, the `read_batch` iteration),
* `parquet/src/file/serialized_reader.rs` — `SerializedPageReader::get_next_page`.

Machine integers are modelled as `Nat`/`Int`; buffers and bitmaps as lists;
fallible code returns `Except`.  Rust panics (slice indexing, `assert!`,
`expect`) are modelled by a dedicated error constructor so that "the call
succeeds" in a theorem means the Rust code neither errors nor panics.
-/

set_option maxRecDepth 4000

namespace ArrowTake

/-- Errors of the arrow kernel.  `computeError` is `ArrowError::ComputeError`;
`panicked` stands for a Rust panic (out-of-bounds slice index, failed
`unwrap`), which is not a recoverable error in the source but is made explicit
here so that theorems can require its absence. -/
inductive ArrowError where
  | computeError (msg : String)
  | panicked
  deriving DecidableEq, Repr

/-- `maybe_usize` / `ToPrimitive::to_usize`: convert a (signed) native index to
a host `usize`.  On a 64-bit host this fails exactly for negative values. -/
def maybeUsize (index : Int) : Except ArrowError Nat :=
  if 0 ≤ index then .ok index.toNat
  else .error (.computeError "Cast to usize failed")

/-- A primitive array (`PrimitiveArray<T>` with `T`'s native type modelled as
`Int`): full values buffer, optional full validity bitmap (`true` = valid),
and the zero-copy slice window `[off, off+len)`.  Bit `off + i` of the bitmap
governs logical slot `i`, as in `ArrayData::is_null`. -/
structure PrimArray where
  buf : List Int
  nullBuf : Option (List Bool)
  off : Nat
  len : Nat
  deriving DecidableEq, Repr

namespace PrimArray

/-- `PrimitiveArray::values()`: the typed slice over the logical window. -/
def values (a : PrimArray) : List Int :=
  (a.buf.drop a.off).take a.len

/-- `PrimitiveArray::value(i)`: raw read of logical slot `i` (defined even on a
null slot, where the stored payload is unspecified; here it is whatever the
buffer holds). -/
def value (a : PrimArray) (i : Nat) : Int :=
  a.buf.getD (a.off + i) 0

/-- `ArrayData::is_valid(i)`: bit `off + i` of the validity bitmap; arrays
without a bitmap are valid everywhere. -/
def isValid (a : PrimArray) (i : Nat) : Bool :=
  match a.nullBuf with
  | none => true
  | some b => b.getD (a.off + i) false

/-- `ArrayData::null_count()`: number of null slots in the logical window. -/
def nullCount (a : PrimArray) : Nat :=
  ((List.range a.len).filter (fun i => !a.isValid i)).length

/-- Well-formedness of the buffer layout: the logical window fits inside the
values buffer and (when present) the validity bitmap. -/
def wf (a : PrimArray) : Bool :=
  decide (a.off + a.len ≤ a.buf.length) &&
    (match a.nullBuf with
     | none => true
     | some b => decide (a.off + a.len ≤ b.length))

end PrimArray

/-- `take_no_nulls` (values and indices both free of nulls): gather
`values[index]` for each raw index. -/
def takeNoNullsGo (values : List Int) : List Int → Except ArrowError (List Int)
  | [] => .ok []
  | ix :: rest =>
    match maybeUsize ix with
    | .error e => .error e
    | .ok i =>
      match values.get? i with
      | none => .error .panicked
      | some v =>
        match takeNoNullsGo values rest with
        | .error e => .error e
        | .ok tl => .ok (v :: tl)

/-- Loop of `take_values_nulls_inner`: for each raw index, record the gathered
payload and the validity of the source slot (a cleared bit in the bitmap being
built). -/
def takeValuesNullsGo (vd : PrimArray) : List Int → Except ArrowError (List Int × List Bool)
  | [] => .ok ([], [])
  | ix :: rest =>
    match maybeUsize ix with
    | .error e => .error e
    | .ok i =>
      match vd.values.get? i with
      | none => .error .panicked
      | some v =>
        match takeValuesNullsGo vd rest with
        | .error e => .error e
        | .ok (vs, fs) => .ok (v :: vs, vd.isValid i :: fs)

/-- Loop of `take_indices_nulls_inner`: gather through the raw index slice; a
failed buffer read falls back to `T::default()` when `indices_data.is_null` at
the *converted index* (the source checks the converted value, not the slot
position), else panics. -/
def takeIndicesNullsGo (values : List Int) (indicesData : PrimArray) :
    List Int → Except ArrowError (List Int)
  | [] => .ok []
  | ix :: rest =>
    match maybeUsize ix with
    | .error e => .error e
    | .ok i =>
      match values.get? i with
      | some v =>
        match takeIndicesNullsGo values indicesData rest with
        | .error e => .error e
        | .ok tl => .ok (v :: tl)
      | none =>
        if indicesData.isValid i then .error .panicked
        else
          match takeIndicesNullsGo values indicesData rest with
          | .error e => .error e
          | .ok tl => .ok ((0 : Int) :: tl)

/-- Loop of `take_values_indices_nulls_inner`: position `i` null in the index
array yields `T::default()` and a cleared bit; otherwise gather and inherit the
source slot's validity. -/
def takeValuesIndicesNullsGo (vd : PrimArray) (indicesData : PrimArray) :
    Nat → List Int → Except ArrowError (List Int × List Bool)
  | _, [] => .ok ([], [])
  | i, ix :: rest =>
    if indicesData.isValid i then
      match maybeUsize ix with
      | .error e => .error e
      | .ok n =>
        match vd.values.get? n with
        | none => .error .panicked
        | some v =>
          match takeValuesIndicesNullsGo vd indicesData (i + 1) rest with
          | .error e => .error e
          | .ok (vs, fs) => .ok (v :: vs, vd.isValid n :: fs)
    else
      match takeValuesIndicesNullsGo vd indicesData (i + 1) rest with
      | .error e => .error e
      | .ok (vs, fs) => .ok ((0 : Int) :: vs, false :: fs)

/-- The null-buffer postprocessing shared by the two bitmap-building paths: the
bitmap is kept only when at least one bit was cleared (`null_count == 0`
elides it). -/
def elideNulls (flags : List Bool) : Option (List Bool) :=
  if (flags.filter (fun b => !b)).length = 0 then none else some flags

/-- `take_primitive`: dispatch on (values have nulls) × (indices have nulls)
to the four specialised paths, then assemble a fresh array of length
`indices.len` with offset 0. -/
def takePrimitive (values indices : PrimArray) : Except ArrowError PrimArray :=
  match decide (0 < values.nullCount), decide (0 < indices.nullCount) with
  | false, false =>
    match takeNoNullsGo values.values indices.values with
    | .error e => .error e
    | .ok buf => .ok ⟨buf, none, 0, indices.len⟩
  | true, false =>
    match takeValuesNullsGo values indices.values with
    | .error e => .error e
    | .ok (buf, flags) => .ok ⟨buf, elideNulls flags, 0, indices.len⟩
  | false, true =>
    match takeIndicesNullsGo values.values indices indices.values with
    | .error e => .error e
    | .ok buf =>
      .ok ⟨buf, indices.nullBuf.map (fun b => (b.drop indices.off).take indices.values.length),
           0, indices.len⟩
  | true, true =>
    match takeValuesIndicesNullsGo values indices 0 indices.values with
    | .error e => .error e
    | .ok (buf, flags) => .ok ⟨buf, elideNulls flags, 0, indices.len⟩

/-- A variable-length string or binary array (`GenericStringArray` /
`GenericBinaryArray`): offsets buffer (length covering `off+len+1` when
well-formed), flat byte buffer, optional validity bitmap, slice window. -/
structure VarBinArray where
  offsets : List Int
  bytes : List Nat
  nullBuf : Option (List Bool)
  off : Nat
  len : Nat
  deriving DecidableEq, Repr

namespace VarBinArray

/-- `is_valid(i)` through the array's `ArrayData` (bit `off + i`). -/
def isValid (a : VarBinArray) (i : Nat) : Bool :=
  match a.nullBuf with
  | none => true
  | some b => b.getD (a.off + i) false

/-- Null count over the logical window. -/
def nullCount (a : VarBinArray) : Nat :=
  ((List.range a.len).filter (fun i => !a.isValid i)).length

/-- `value(i)`: the byte run `[offsets[off+i], offsets[off+i+1])`; panics when
`i` is outside the array, as the slice indexing in the source does. -/
def valueAt (a : VarBinArray) (i : Nat) : Except ArrowError (List Nat) :=
  if i < a.len then
    let s := (a.offsets.getD (a.off + i) 0).toNat
    let e := (a.offsets.getD (a.off + i + 1) 0).toNat
    .ok ((a.bytes.drop s).take (e - s))
  else .error .panicked

/-- Layout well-formedness: offsets cover the window and are non-negative and
monotone there, the bitmap (when present) covers the window, and the byte
buffer covers the last offset. -/
def wf (a : VarBinArray) : Bool :=
  decide (a.off + a.len + 1 ≤ a.offsets.length) &&
    decide (0 ≤ a.offsets.getD a.off 0) &&
    (List.range (a.off + a.len)).all
      (fun j => decide (a.offsets.getD j 0 ≤ a.offsets.getD (j + 1) 0)) &&
    decide ((a.offsets.getD (a.off + a.len) 0).toNat ≤ a.bytes.length) &&
    (match a.nullBuf with
     | none => true
     | some b => decide (a.off + a.len ≤ b.length))

end VarBinArray

/-- Branch 1 loop of `take_string` (no nulls anywhere): append each gathered
byte run and record the running offset. -/
def tsNoNullsGo (array : VarBinArray) (indices : PrimArray) :
    List Nat → Int → Except ArrowError (List Nat × List Int)
  | [], _ => .ok ([], [])
  | i :: rest, lengthSoFar =>
    match maybeUsize (indices.value i) with
    | .error e => .error e
    | .ok index =>
      match array.valueAt index with
      | .error e => .error e
      | .ok s =>
        let newLen := lengthSoFar + s.length
        match tsNoNullsGo array indices rest newLen with
        | .error e => .error e
        | .ok (bs, offs) => .ok (s ++ bs, newLen :: offs)

/-- Branch 2 loop of `take_string` (only values have nulls): a null source slot
contributes no bytes, repeats the offset and clears the output bit. -/
def tsValuesNullsGo (array : VarBinArray) (indices : PrimArray) :
    List Nat → Int → Except ArrowError (List Nat × List Int × List Bool)
  | [], _ => .ok ([], [], [])
  | i :: rest, lengthSoFar =>
    match maybeUsize (indices.value i) with
    | .error e => .error e
    | .ok index =>
      if array.isValid index then
        match array.valueAt index with
        | .error e => .error e
        | .ok s =>
          let newLen := lengthSoFar + s.length
          match tsValuesNullsGo array indices rest newLen with
          | .error e => .error e
          | .ok (bs, offs, fs) => .ok (s ++ bs, newLen :: offs, true :: fs)
      else
        match tsValuesNullsGo array indices rest lengthSoFar with
        | .error e => .error e
        | .ok (bs, offs, fs) => .ok (bs, lengthSoFar :: offs, false :: fs)

/-- Branch 3 loop of `take_string` (only indices have nulls): a null index
slot is skipped (offset repeated); no bitmap is built here. -/
def tsIndicesNullsGo (array : VarBinArray) (indices : PrimArray) :
    List Nat → Int → Except ArrowError (List Nat × List Int)
  | [], _ => .ok ([], [])
  | i :: rest, lengthSoFar =>
    if indices.isValid i then
      match maybeUsize (indices.value i) with
      | .error e => .error e
      | .ok index =>
        match array.valueAt index with
        | .error e => .error e
        | .ok s =>
          let newLen := lengthSoFar + s.length
          match tsIndicesNullsGo array indices rest newLen with
          | .error e => .error e
          | .ok (bs, offs) => .ok (s ++ bs, newLen :: offs)
    else
      match tsIndicesNullsGo array indices rest lengthSoFar with
      | .error e => .error e
      | .ok (bs, offs) => .ok (bs, lengthSoFar :: offs)

/-- Branch 4 loop of `take_string` (both have nulls): the raw index value is
converted even on a null index slot, then the slot is kept only when both the
source slot and the index slot are valid. -/
def tsBothNullsGo (array : VarBinArray) (indices : PrimArray) :
    List Nat → Int → Except ArrowError (List Nat × List Int × List Bool)
  | [], _ => .ok ([], [], [])
  | i :: rest, lengthSoFar =>
    match maybeUsize (indices.value i) with
    | .error e => .error e
    | .ok index =>
      if array.isValid index && indices.isValid i then
        match array.valueAt index with
        | .error e => .error e
        | .ok s =>
          let newLen := lengthSoFar + s.length
          match tsBothNullsGo array indices rest newLen with
          | .error e => .error e
          | .ok (bs, offs, fs) => .ok (s ++ bs, newLen :: offs, true :: fs)
      else
        match tsBothNullsGo array indices rest lengthSoFar with
        | .error e => .error e
        | .ok (bs, offs, fs) => .ok (bs, lengthSoFar :: offs, false :: fs)

/-- `take_string`: single-pass gather with four null-combination branches.
Branch 3 clones the indices' raw null buffer without re-slicing it to the
indices' offset, and branch 4 calls `buffer_bin_and` with bit offset 0 for the
indices' buffer — both reproduced faithfully from the source. -/
def takeString (array : VarBinArray) (indices : PrimArray) :
    Except ArrowError VarBinArray :=
  let dataLen := indices.len
  if array.nullCount = 0 && indices.nullCount = 0 then
    match tsNoNullsGo array indices (List.range dataLen) 0 with
    | .error e => .error e
    | .ok (bs, offs) => .ok ⟨0 :: offs, bs, none, 0, dataLen⟩
  else if indices.nullCount = 0 then
    match tsValuesNullsGo array indices (List.range dataLen) 0 with
    | .error e => .error e
    | .ok (bs, offs, fs) => .ok ⟨0 :: offs, bs, some fs, 0, dataLen⟩
  else if array.nullCount = 0 then
    match tsIndicesNullsGo array indices (List.range dataLen) 0 with
    | .error e => .error e
    | .ok (bs, offs) => .ok ⟨0 :: offs, bs, indices.nullBuf, 0, dataLen⟩
  else
    match tsBothNullsGo array indices (List.range dataLen) 0 with
    | .error e => .error e
    | .ok (bs, offs, fs) =>
      let nulls :=
        match indices.nullBuf with
        | some b => some (List.zipWith (fun x y => x && y) (b.take dataLen) fs)
        | none => some fs
      .ok ⟨0 :: offs, bs, nulls, 0, dataLen⟩

/-- Modelled from the spec: building a binary array by collecting
`Option<&[u8]>` items (the `FromIterator` impl used by `take_binary`, which is
not among the sources).  Per §4.4, a present item appends its bytes and
advances the offset, an absent item repeats the offset and clears the bit. -/
def varBinFromOptItems (items : List (Option (List Nat))) : VarBinArray :=
  let offsets := (items.foldl
    (fun (acc : List Int × Int) it =>
      let next := acc.2 + (match it with | some s => (s.length : Int) | none => 0)
      (acc.1 ++ [next], next)) ([(0 : Int)], (0 : Int))).1
  { offsets := offsets,
    bytes := items.foldr (fun it rest => (it.getD []) ++ rest) [],
    nullBuf := some (items.map Option.isSome),
    off := 0,
    len := items.length }

/-- The gathering loop shared by `take_binary` and `take_fixed_size_binary`:
map each raw index value to `Some(value)` when the source slot is valid and
`None` when it is null. -/
def takeBinaryGo (values : VarBinArray) : List Int → Except ArrowError (List (Option (List Nat)))
  | [] => .ok []
  | idx :: rest =>
    match maybeUsize idx with
    | .error e => .error e
    | .ok i =>
      if values.isValid i then
        match values.valueAt i with
        | .error e => .error e
        | .ok s =>
          match takeBinaryGo values rest with
          | .error e => .error e
          | .ok tl => .ok (some s :: tl)
      else
        match takeBinaryGo values rest with
        | .error e => .error e
        | .ok tl => .ok (none :: tl)

/-- `take_binary`: gathers through the *raw* index slice `indices.values()`;
the validity of the index array is never consulted. -/
def takeBinary (values : VarBinArray) (indices : PrimArray) :
    Except ArrowError VarBinArray :=
  match takeBinaryGo values indices.values with
  | .error e => .error e
  | .ok items => .ok (varBinFromOptItems items)

/-- A fixed-size binary array: flat byte buffer of `width`-byte slots. -/
structure FsbArray where
  width : Nat
  bytes : List Nat
  nullBuf : Option (List Bool)
  off : Nat
  len : Nat
  deriving DecidableEq, Repr

namespace FsbArray

/-- `is_valid(i)` through the array's data (bit `off + i`). -/
def isValid (a : FsbArray) (i : Nat) : Bool :=
  match a.nullBuf with
  | none => true
  | some b => b.getD (a.off + i) false

/-- `value(i)`: the `width`-byte run of slot `i`; panics outside the array. -/
def valueAt (a : FsbArray) (i : Nat) : Except ArrowError (List Nat) :=
  if i < a.len then
    .ok ((a.bytes.drop ((a.off + i) * a.width)).take a.width)
  else .error .panicked

end FsbArray

/-- Modelled from the spec: `FixedSizeBinaryArray::try_from_sparse_iter` (not
among the sources) builds an array with one slot per item, validity from item
presence, failing when no sizing item exists; per §4.6 the result keeps the
byte width and has one slot per gathered index. -/
def fsbFromSparseItems (width : Nat) (items : List (Option (List Nat))) :
    Except ArrowError FsbArray :=
  if items.all (fun it => it.isNone) then
    .error (.computeError "Input iterable argument has no data")
  else
    .ok { width := width,
          bytes := items.foldr
            (fun it rest => (it.getD (List.replicate width 0)) ++ rest) [],
          nullBuf := some (items.map Option.isSome),
          off := 0,
          len := items.length }

/-- The gathering loop of `take_fixed_size_binary` (same shape as
`take_binary`'s). -/
def takeFsbGo (values : FsbArray) : List Int → Except ArrowError (List (Option (List Nat)))
  | [] => .ok []
  | idx :: rest =>
    match maybeUsize idx with
    | .error e => .error e
    | .ok i =>
      if values.isValid i then
        match values.valueAt i with
        | .error e => .error e
        | .ok s =>
          match takeFsbGo values rest with
          | .error e => .error e
          | .ok tl => .ok (some s :: tl)
      else
        match takeFsbGo values rest with
        | .error e => .error e
        | .ok tl => .ok (none :: tl)

/-- `take_fixed_size_binary`: like `take_binary`, gathers through the raw
index slice and never consults the index array's validity. -/
def takeFixedSizeBinary (values : FsbArray) (indices : PrimArray) :
    Except ArrowError FsbArray :=
  match takeFsbGo values indices.values with
  | .error e => .error e
  | .ok items => fsbFromSparseItems values.width items

/-- The list-specific part of a `GenericListArray`: offsets into the flattened
child, validity bitmap and slice window (the child array is carried
separately in the array union below). -/
structure ListMeta where
  offsets : List Int
  nullBuf : Option (List Bool)
  off : Nat
  len : Nat
  deriving DecidableEq, Repr

namespace ListMeta

/-- `is_valid(i)` (bit `off + i`). -/
def isValid (m : ListMeta) (i : Nat) : Bool :=
  match m.nullBuf with
  | none => true
  | some b => b.getD (m.off + i) false

end ListMeta

/-- Integer range `[s, e)` as a list (the inner index run of one list slot). -/
def rangeInt (s e : Int) : List Int :=
  (List.range (e - s).toNat).map (fun j => s + (j : Int))

/-- Loop of `take_value_indices_from_list` over the output slots: a valid
index slot contributes its source range and advances the running offset by
the range's span, a null index slot repeats the offset. -/
def tvilGo (values : ListMeta) (indices : PrimArray) :
    List Nat → Int → Except ArrowError (List Int × List Int)
  | [], _ => .ok ([], [])
  | k :: rest, current =>
    if indices.isValid k then
      match maybeUsize (indices.value k) with
      | .error e => .error e
      | .ok ix =>
        match tvilGo values indices rest
            (current + (values.offsets.getD (values.off + ix + 1) 0 -
              values.offsets.getD (values.off + ix) 0)) with
        | .error err => .error err
        | .ok (li, offs) =>
          .ok (rangeInt (values.offsets.getD (values.off + ix) 0)
                (values.offsets.getD (values.off + ix + 1) 0) ++ li,
            (current + (values.offsets.getD (values.off + ix + 1) 0 -
              values.offsets.getD (values.off + ix) 0)) :: offs)
    else
      match tvilGo values indices rest current with
      | .error err => .error err
      | .ok (li, offs) => .ok (li, current :: offs)

/-- Modelled from the spec: `take_value_indices_from_list` (crate
`compute::util`, not among the sources).  Per §4.5 it returns the
concatenation of the inner index ranges `[V.offsets[ix], V.offsets[ix+1])`
of the designated list slots, and the prefix-sum offsets of the gathered
lengths starting at 0; null index slots yield empty ranges. -/
def takeValueIndicesFromList (values : ListMeta) (indices : PrimArray) :
    Except ArrowError (List Int × List Int) :=
  match tvilGo values indices (List.range indices.len) 0 with
  | .error e => .error e
  | .ok (li, offs) => .ok (li, (0 : Int) :: offs)

/-- The null-derivation loop of `take_list`: walk adjacent output offsets and
clear the bit of every slot whose window is empty. -/
def listNullFlags (offsets : List Int) (len : Nat) : List Bool :=
  (List.range len).map (fun k => offsets.getD k 0 != offsets.getD (k + 1) 0)

/-- A boolean array (`BooleanArray`): packed value bits, validity bitmap and
slice window. -/
structure BoolArray where
  vals : List Bool
  nullBuf : Option (List Bool)
  off : Nat
  len : Nat
  deriving DecidableEq, Repr

namespace BoolArray

/-- `is_valid(i)` (bit `off + i`). -/
def isValid (a : BoolArray) (i : Nat) : Bool :=
  match a.nullBuf with
  | none => true
  | some b => b.getD (a.off + i) false

/-- Null count over the logical window. -/
def nullCount (a : BoolArray) : Nat :=
  ((List.range a.len).filter (fun i => !a.isValid i)).length

/-- `value(i)`: value bit `off + i`; panics outside the array as the slice
read in the source does. -/
def valueAt (a : BoolArray) (i : Nat) : Except ArrowError Bool :=
  if i < a.len then .ok (a.vals.getD (a.off + i) false) else .error .panicked

end BoolArray

/-- Loop of `take_boolean`'s no-value-nulls branch: gather the value bit of
every converted index. -/
def tbNoNullsGo (values : BoolArray) (indices : PrimArray) :
    List Nat → Except ArrowError (List Bool)
  | [] => .ok []
  | i :: rest =>
    match maybeUsize (indices.value i) with
    | .error e => .error e
    | .ok index =>
      match values.valueAt index with
      | .error e => .error e
      | .ok b =>
        match tbNoNullsGo values indices rest with
        | .error e => .error e
        | .ok tl => .ok (b :: tl)

/-- Loop of `take_boolean`'s values-have-nulls branch: a null source slot
clears the output bit (value bit stays 0); a valid one gathers its bit. -/
def tbValNullsGo (values : BoolArray) (indices : PrimArray) :
    List Nat → Except ArrowError (List Bool × List Bool)
  | [] => .ok ([], [])
  | i :: rest =>
    match maybeUsize (indices.value i) with
    | .error e => .error e
    | .ok index =>
      if values.isValid index then
        match values.valueAt index with
        | .error e => .error e
        | .ok b =>
          match tbValNullsGo values indices rest with
          | .error e => .error e
          | .ok (bs, fs) => .ok (b :: bs, true :: fs)
      else
        match tbValNullsGo values indices rest with
        | .error e => .error e
        | .ok (bs, fs) => .ok (false :: bs, false :: fs)

/-- `take_boolean`: when the values carry no nulls the indices' raw null
buffer is cloned unsliced for the result; otherwise a bitmap is built from
the source slots' validity and ANDed (at the indices' bit offset) with the
indices' bitmap. -/
def takeBoolean (values : BoolArray) (indices : PrimArray) :
    Except ArrowError BoolArray :=
  if values.nullCount = 0 then
    match tbNoNullsGo values indices (List.range indices.len) with
    | .error e => .error e
    | .ok bits => .ok ⟨bits, indices.nullBuf, 0, indices.len⟩
  else
    match tbValNullsGo values indices (List.range indices.len) with
    | .error e => .error e
    | .ok (bits, fs) =>
      match indices.nullBuf with
      | some b =>
        .ok ⟨bits, some (List.zipWith (fun x y => x && y)
          ((b.drop indices.off).take indices.len) fs), 0, indices.len⟩
      | none => .ok ⟨bits, some fs, 0, indices.len⟩

/-- A decimal array (`DecimalArray`): dense i128 values with
(precision, scale). -/
structure DecArray where
  vals : List Int
  nullBuf : Option (List Bool)
  off : Nat
  len : Nat
  precision : Nat
  scale : Nat
  deriving DecidableEq, Repr

namespace DecArray

/-- `is_valid(i)` (bit `off + i`). -/
def isValid (a : DecArray) (i : Nat) : Bool :=
  match a.nullBuf with
  | none => true
  | some b => b.getD (a.off + i) false

/-- Null count over the logical window. -/
def nullCount (a : DecArray) : Nat :=
  ((List.range a.len).filter (fun i => !a.isValid i)).length

end DecArray

/-- Loop of `take_decimal128` over the logical index slots: a null index slot
or a null source slot yields `None`; a valid one reads the 16-byte payload
(panicking outside the array). -/
def takeDecGo (dv : DecArray) (indices : PrimArray) :
    List Nat → Except ArrowError (List (Option Int))
  | [] => .ok []
  | i :: rest =>
    if indices.isValid i then
      match maybeUsize (indices.value i) with
      | .error e => .error e
      | .ok index =>
        if dv.isValid index then
          if index < dv.len then
            match takeDecGo dv indices rest with
            | .error e => .error e
            | .ok tl => .ok (some (dv.vals.getD (dv.off + index) 0) :: tl)
          else .error .panicked
        else
          match takeDecGo dv indices rest with
          | .error e => .error e
          | .ok tl => .ok (none :: tl)
    else
      match takeDecGo dv indices rest with
      | .error e => .error e
      | .ok tl => .ok (none :: tl)

/-- Modelled from the spec: collecting `Option<i128>` items into a decimal
array (the `FromIterator` impl and `with_precision_and_scale`, not among the
sources).  Per §4.6 the gather emits one 16-byte payload per slot, invalid
inner values propagate as null, and (precision, scale) are preserved; the
re-validation of in-range values always succeeds here since they come from a
valid array of the same precision, as the source itself notes. -/
def decFromOptItems (precision scale : Nat) (items : List (Option Int)) : DecArray :=
  { vals := items.map (fun it => it.getD 0),
    nullBuf := some (items.map Option.isSome),
    off := 0,
    len := items.length,
    precision := precision,
    scale := scale }

/-- `take_decimal128`: gather through the logical index slots and rebuild
with the input's precision and scale. -/
def takeDecimal128 (dv : DecArray) (indices : PrimArray) :
    Except ArrowError DecArray :=
  match takeDecGo dv indices (List.range indices.len) with
  | .error e => .error e
  | .ok items => .ok (decFromOptItems dv.precision dv.scale items)

/-- The fixed-size-list-specific part of a `FixedSizeListArray`: the per-slot
element count and validity (the flattened child array is carried separately
in the array union). -/
structure FslMeta where
  length : Nat
  nullBuf : Option (List Bool)
  off : Nat
  len : Nat
  deriving DecidableEq, Repr

namespace FslMeta

/-- `is_valid(i)` (bit `off + i`). -/
def isValid (m : FslMeta) (i : Nat) : Bool :=
  match m.nullBuf with
  | none => true
  | some b => b.getD (m.off + i) false

end FslMeta

/-- Loop of the spec-modelled fixed-size-list index gatherer: a valid index
slot with list index `ix` contributes the inner run `[ix·L, ix·L + L)`, a
null one contributes nothing. -/
def tvifslGo (values : FslMeta) (indices : PrimArray) (length : Nat) :
    List Nat → Except ArrowError (List Int)
  | [] => .ok []
  | k :: rest =>
    if indices.isValid k then
      match maybeUsize (indices.value k) with
      | .error e => .error e
      | .ok ix =>
        match tvifslGo values indices length rest with
        | .error e => .error e
        | .ok tl =>
          .ok (rangeInt ((ix * length : Nat) : Int)
            ((ix * length + length : Nat) : Int) ++ tl)
    else
      match tvifslGo values indices length rest with
      | .error e => .error e
      | .ok tl => .ok tl

/-- Modelled from the spec: `take_value_indices_from_fixed_size_list` (crate
`compute::util`, not among the sources).  Per §4.5 the inner indices of
output slot `k` with list index `ix` are `ix·L + j` for `j < L`; null index
slots contribute empty ranges as in the variable-size algorithm. -/
def takeValueIndicesFromFixedSizeList (values : FslMeta) (indices : PrimArray)
    (length : Nat) : Except ArrowError (List Int) :=
  tvifslGo values indices length (List.range indices.len)

/-- The null-derivation loop of `take_fixed_size_list`: every raw index value
is converted (even on a null index slot); the output bit is cleared when the
index slot is null or the designated list slot is. -/
def fslNullFlagsGo (values : FslMeta) (indices : PrimArray) :
    List Nat → Except ArrowError (List Bool)
  | [] => .ok []
  | i :: rest =>
    match maybeUsize (indices.value i) with
    | .error e => .error e
    | .ok index =>
      match fslNullFlagsGo values indices rest with
      | .error e => .error e
      | .ok tl => .ok ((indices.isValid i && values.isValid index) :: tl)

/-- The struct-specific part of a `StructArray`: its own validity bitmap and
window (the field columns are carried separately in the array union). -/
structure StructMeta where
  nullBuf : Option (List Bool)
  off : Nat
  len : Nat
  deriving DecidableEq, Repr

namespace StructMeta

/-- `is_valid(i)` (bit `off + i`). -/
def isValid (m : StructMeta) (i : Nat) : Bool :=
  match m.nullBuf with
  | none => true
  | some b => b.getD (m.off + i) false

end StructMeta

/-- The struct branch's validity loop: a null index slot yields a cleared
bit; a non-null one is converted (a failed conversion is an `unwrap` panic in
the source) and inherits the struct's validity at the converted index. -/
def structValidGo (meta : StructMeta) (indices : PrimArray) :
    List Nat → Except ArrowError (List Bool)
  | [] => .ok []
  | k :: rest =>
    if indices.isValid k then
      match maybeUsize (indices.value k) with
      | .error _ => .error .panicked
      | .ok index =>
        match structValidGo meta indices rest with
        | .error e => .error e
        | .ok tl => .ok (meta.isValid index :: tl)
    else
      match structValidGo meta indices rest with
      | .error e => .error e
      | .ok tl => .ok (false :: tl)

/-- The tagged array union covering the supported variants of the kernel:
booleans, decimals, primitives (all fixed-width numeric families behave as
`prim`), strings and binaries, fixed-size binaries, variable-offset and
fixed-size lists (each with their flattened child array), structs (their
field columns), dictionaries (keys plus shared dictionary values), and the
degenerate null array. -/
inductive ArrowArray where
  | bool (a : BoolArray)
  | dec (a : DecArray)
  | prim (a : PrimArray)
  | str (a : VarBinArray)
  | bin (a : VarBinArray)
  | fsb (a : FsbArray)
  | list (m : ListMeta) (child : ArrowArray)
  | fsl (m : FslMeta) (child : ArrowArray)
  | strct (meta : StructMeta) (children : List ArrowArray)
  | dict (keys : PrimArray) (vals : ArrowArray)
  | nullArr (n : Nat)

namespace ArrowArray

/-- `Array::len()`: the logical length of each variant.  A dictionary's
length is its keys' length; a list's or struct's is its own window length. -/
def length : ArrowArray → Nat
  | .bool a => a.len
  | .dec a => a.len
  | .prim a => a.len
  | .str a => a.len
  | .bin a => a.len
  | .fsb a => a.len
  | .list m _ => m.len
  | .fsl m _ => m.len
  | .strct meta _ => meta.len
  | .dict keys _ => keys.len
  | .nullArr n => n

/-- `Array::is_valid(i)` for each variant (a null array is null everywhere;
a dictionary's validity is its keys' validity). -/
def isValidAt : ArrowArray → Nat → Bool
  | .bool a, i => a.isValid i
  | .dec a, i => a.isValid i
  | .prim a, i => a.isValid i
  | .str a, i => a.isValid i
  | .bin a, i => a.isValid i
  | .fsb a, i => a.isValid i
  | .list m _, i => m.isValid i
  | .fsl m _, i => m.isValid i
  | .strct meta _, i => meta.isValid i
  | .dict keys _, i => keys.isValid i
  | .nullArr _, _ => false

end ArrowArray

/-- The out-of-bounds message format of `take_impl`'s check. -/
def oobMsg (ix len : Nat) : String :=
  "Array index out of bounds, cannot get item at index " ++ toString ix ++
    " from " ++ toString len ++ " entries"

/-- Bounds-check loop over a list of raw index values (used for both the
flattened non-null values and, when no nulls exist, the full window). -/
def boundsCheckGo (len : Nat) : List Int → Except ArrowError Unit
  | [] => .ok ()
  | ix :: rest =>
    match maybeUsize ix with
    | .error e => .error e
    | .ok i =>
      if len ≤ i then .error (.computeError (oobMsg i len))
      else boundsCheckGo len rest

/-- The values of the non-null index slots in logical order
(`indices.iter().flatten()`). -/
def nonNullIndexValues (indices : PrimArray) : List Int :=
  ((List.range indices.len).filter (fun k => indices.isValid k)).map
    (fun k => indices.value k)

/-- The `check_bounds` phase of `take_impl`: with nulls present, every
non-null index is converted and compared; without nulls, every raw value of
the window is. -/
def boundsCheck (len : Nat) (indices : PrimArray) : Except ArrowError Unit :=
  if 0 < indices.nullCount then boundsCheckGo len (nonNullIndexValues indices)
  else boundsCheckGo len indices.values

/-- `TakeOptions` (only `check_bounds`, default `false`). -/
structure TakeOptions where
  checkBounds : Bool
  deriving DecidableEq, Repr

mutual

/-- `take_impl`: optional bounds check, then dispatch on the values variant.
The list branches rebuild a list from the spec-modelled index gatherers, a
recursive take of the child, and nulls derived from equal adjacent output
offsets (variable) or the explicit validity loop (fixed); the struct branch
takes every field column with the same indices and options and rebuilds the
parent validity from the struct's own bitmap; the dictionary branch gathers
the keys and shares the dictionary values; a null array short-circuits to a
null array of the indices' length (slicing the input when it is long
enough). -/
def takeImpl (values : ArrowArray) (indices : PrimArray)
    (options : Option TakeOptions) : Except ArrowError ArrowArray :=
  let opts := options.getD ⟨false⟩
  match (if opts.checkBounds then boundsCheck values.length indices else .ok ()) with
  | .error e => .error e
  | .ok _ =>
    match values with
    | .bool a =>
      match takeBoolean a indices with
      | .error e => .error e
      | .ok r => .ok (.bool r)
    | .dec a =>
      match takeDecimal128 a indices with
      | .error e => .error e
      | .ok r => .ok (.dec r)
    | .prim a =>
      match takePrimitive a indices with
      | .error e => .error e
      | .ok r => .ok (.prim r)
    | .str a =>
      match takeString a indices with
      | .error e => .error e
      | .ok r => .ok (.str r)
    | .bin a =>
      match takeBinary a indices with
      | .error e => .error e
      | .ok r => .ok (.bin r)
    | .fsb a =>
      match takeFixedSizeBinary a indices with
      | .error e => .error e
      | .ok r => .ok (.fsb r)
    | .list m child =>
      match takeValueIndicesFromList m indices with
      | .error e => .error e
      | .ok (li, offs) =>
        match takeImpl child ⟨li, none, 0, li.length⟩ none with
        | .error e => .error e
        | .ok taken =>
          .ok (.list ⟨offs, some (listNullFlags offs indices.len), 0, indices.len⟩ taken)
    | .fsl m child =>
      match takeValueIndicesFromFixedSizeList m indices m.length with
      | .error e => .error e
      | .ok li =>
        match takeImpl child ⟨li, none, 0, li.length⟩ none with
        | .error e => .error e
        | .ok taken =>
          match fslNullFlagsGo m indices (List.range indices.len) with
          | .error e => .error e
          | .ok flags =>
            .ok (.fsl ⟨m.length, some flags, 0, indices.len⟩ taken)
    | .strct meta children =>
      match takeImplChildren children indices (some opts) with
      | .error e => .error e
      | .ok taken =>
        match structValidGo meta indices (List.range indices.len) with
        | .error e => .error e
        | .ok flags =>
          .ok (.strct ⟨some flags, 0, indices.len⟩ taken)
    | .dict keys vals =>
      match takePrimitive keys indices with
      | .error e => .error e
      | .ok newKeys => .ok (.dict newKeys vals)
    | .nullArr n =>
      if indices.len ≤ n then .ok (.nullArr indices.len)
      else .ok (.nullArr indices.len)

/-- The struct branch's `columns().iter().map(take_impl(..)).collect()`:
every field column is taken with the same indices and options, the first
failure aborting the collection. -/
def takeImplChildren (children : List ArrowArray) (indices : PrimArray)
    (options : Option TakeOptions) : Except ArrowError (List ArrowArray) :=
  match children with
  | [] => .ok []
  | c :: rest =>
    match takeImpl c indices options with
    | .error e => .error e
    | .ok r =>
      match takeImplChildren rest indices options with
      | .error e => .error e
      | .ok tl => .ok (r :: tl)

end

/-- `take`: the public entry point. -/
def take (values : ArrowArray) (indices : PrimArray)
    (options : Option TakeOptions) : Except ArrowError ArrowArray :=
  takeImpl values indices options

end ArrowTake

namespace Parquet

/-- Parquet errors: `General` (from `general_err!`), end-of-file, and a
marker for Rust panics (failed `assert!`/`expect`). -/
inductive PqError where
  | general (msg : String)
  | eof (msg : String)
  | panicked
  deriving DecidableEq, Repr

/-- The level/value encodings the reader distinguishes. -/
inductive Encoding where
  | PLAIN
  | RLE
  | BIT_PACKED
  | PLAIN_DICTIONARY
  | RLE_DICTIONARY
  | DELTA_BINARY_PACKED
  deriving DecidableEq, Repr

/-- The `Display` name of an encoding (used in the invalid-encoding error). -/
def encodingName : Encoding → String
  | .PLAIN => "PLAIN"
  | .RLE => "RLE"
  | .BIT_PACKED => "BIT_PACKED"
  | .PLAIN_DICTIONARY => "PLAIN_DICTIONARY"
  | .RLE_DICTIONARY => "RLE_DICTIONARY"
  | .DELTA_BINARY_PACKED => "DELTA_BINARY_PACKED"

/-- `ByteBufferPtr::range(start, len)`: a slice, asserting it stays in
bounds. -/
def bufRange (b : List Nat) (start len : Nat) : Except PqError (List Nat) :=
  if start + len ≤ b.length then .ok ((b.drop start).take len)
  else .error .panicked

/-- `ByteBufferPtr::start_from(start)`: the tail slice, asserting the start
stays in bounds. -/
def bufStartFrom (b : List Nat) (start : Nat) : Except PqError (List Nat) :=
  if start ≤ b.length then .ok (b.drop start) else .error .panicked

/-- `read_num_bytes!(i32, 4, buf)`: the first four bytes, little endian, as a
signed 32-bit value. -/
def readI32LE (b : List Nat) : Int :=
  let u := b.getD 0 0 % 256 + 256 * (b.getD 1 0 % 256) +
    65536 * (b.getD 2 0 % 256) + 16777216 * (b.getD 3 0 % 256)
  if u < 2147483648 then (u : Int) else (u : Int) - 4294967296

/-- Rust `i as usize` for an `i32` on a 64-bit host (sign extension then
reinterpretation). -/
def i32AsUsize (i : Int) : Nat := (i % 18446744073709551616).toNat

/-- `bit_util::ceil`: ceiling division. -/
def ceilDiv (value divisor : Nat) : Nat := (value + divisor - 1) / divisor

/-- `bit_util::num_required_bits(x)`: the bit length of `x` (0 for 0). -/
def numRequiredBits (x : Nat) : Nat := Nat.size x

/-- `parse_v1_level`: extract the level segment of a v1 data page.  RLE reads
a 4-byte little-endian length and takes that many following bytes;
`BIT_PACKED` takes `ceil(num_values * bit_width, 8)` bytes from the start;
anything else is an invalid level encoding. -/
def parseV1Level (maxLevel : Nat) (numBufferedValues : Nat) (encoding : Encoding)
    (buf : List Nat) : Except PqError (Nat × List Nat) :=
  match encoding with
  | .RLE =>
    if 4 ≤ buf.length then
      let dataSize := i32AsUsize (readI32LE buf)
      match bufRange buf 4 dataSize with
      | .error e => .error e
      | .ok seg => .ok (4 + dataSize, seg)
    else .error .panicked
  | .BIT_PACKED =>
    let bitWidth := numRequiredBits maxLevel
    let numBytes := ceilDiv (numBufferedValues * bitWidth) 8
    match bufRange buf 0 numBytes with
    | .error e => .error e
    | .ok seg => .ok (numBytes, seg)
  | e => .error (.general ("invalid level encoding: " ++ encodingName e))

/-- The three page kinds delivered by a `PageReader` to the column reader. -/
inductive PageModel where
  | dictionaryPage (buf : List Nat) (numValues : Nat) (encoding : Encoding)
      (isSorted : Bool)
  | dataPage (buf : List Nat) (numValues : Nat) (encoding : Encoding)
      (defLevelEncoding : Encoding) (repLevelEncoding : Encoding)
  | dataPageV2 (buf : List Nat) (numValues : Nat) (encoding : Encoding)
      (numNulls : Nat) (numRows : Nat) (defLevelsByteLen : Nat)
      (repLevelsByteLen : Nat) (isCompressed : Bool)
  deriving DecidableEq, Repr

/-- The state of `GenericColumnReader` relevant to page admission: the column
descriptor's max levels, the remaining page stream, the current page's value
framing, and the configured decoders (remembered with the byte slices they
were given). -/
structure ColumnReaderState where
  maxDefLevel : Nat
  maxRepLevel : Nat
  pages : List PageModel
  numBufferedValues : Nat
  numDecodedValues : Nat
  defDecoderData : Option (List Nat)
  repDecoderData : Option (List Nat)
  valuesData : List Nat
  dictSet : Bool
  deriving DecidableEq, Repr

/-- The v1 repetition-level step of `read_new_page`: when the column is
repeated, parse a level segment from the front of the page buffer for a fresh
decoder; otherwise consume nothing and keep the previous decoder. -/
def v1RepStep (maxRep nv : Nat) (repEnc : Encoding) (buf : List Nat)
    (prev : Option (List Nat)) : Except PqError (Nat × Option (List Nat)) :=
  if 0 < maxRep then
    match parseV1Level maxRep nv repEnc buf with
    | .error e => .error e
    | .ok (bytesRead, levelData) => .ok (bytesRead, some levelData)
  else .ok (0, prev)

/-- The v1 definition-level step: parse a level segment from the buffer past
the bytes the repetition step consumed. -/
def v1DefStep (maxDef nv : Nat) (defEnc : Encoding) (buf : List Nat)
    (off1 : Nat) (prev : Option (List Nat)) : Except PqError (Nat × Option (List Nat)) :=
  if 0 < maxDef then
    match bufStartFrom buf off1 with
    | .error e => .error e
    | .ok tail =>
      match parseV1Level maxDef nv defEnc tail with
      | .error e => .error e
      | .ok (bytesRead, levelData) => .ok (off1 + bytesRead, some levelData)
  else .ok (off1, prev)

/-- A v2 level region: the explicit byte range of the page buffer (levels are
always RLE in v2), kept only when the corresponding max level is positive. -/
def v2LevelSlice (maxLevel : Nat) (buf : List Nat) (start len : Nat)
    (prev : Option (List Nat)) : Except PqError (Option (List Nat)) :=
  if 0 < maxLevel then
    match bufRange buf start len with
    | .error e => .error e
    | .ok seg => .ok (some seg)
  else .ok prev

/-- `read_new_page`: loop the page source; a dictionary page configures the
value decoder's dictionary and continues; a v1 data page parses rep and then
def level segments out of the page buffer (when the respective max level is
positive) and hands the rest to the value decoder; a v2 data page validates
`num_nulls ≤ num_values` and slices the buffer by the declared level byte
lengths; an exhausted source returns `false`. -/
def readNewPageGo (s : ColumnReaderState) :
    List PageModel → Except PqError (Bool × ColumnReaderState)
  | [] => .ok (false, s)
  | p :: rest =>
    match p with
    | .dictionaryPage _ _ _ _ =>
      readNewPageGo { s with pages := rest, dictSet := true } rest
    | .dataPage buf nv _ defEnc repEnc =>
      match v1RepStep s.maxRepLevel nv repEnc buf s.repDecoderData with
      | .error e => .error e
      | .ok (off1, repData) =>
        match v1DefStep s.maxDefLevel nv defEnc buf off1 s.defDecoderData with
        | .error e => .error e
        | .ok (off2, defData) =>
          match bufStartFrom buf off2 with
          | .error e => .error e
          | .ok vdata =>
            .ok (true, { s with pages := rest, numBufferedValues := nv,
                                numDecodedValues := 0, repDecoderData := repData,
                                defDecoderData := defData, valuesData := vdata })
    | .dataPageV2 buf nv _ numNulls _ defLen repLen _ =>
      if nv < numNulls then
        .error (.general ("more nulls than values in page, contained " ++
          toString nv ++ " values and " ++ toString numNulls ++ " nulls"))
      else
        match v2LevelSlice s.maxRepLevel buf 0 repLen s.repDecoderData with
        | .error e => .error e
        | .ok rd =>
          match v2LevelSlice s.maxDefLevel buf repLen defLen s.defDecoderData with
          | .error e => .error e
          | .ok dd =>
            match bufStartFrom buf (repLen + defLen) with
            | .error e => .error e
            | .ok vdata =>
              .ok (true, { s with pages := rest, numBufferedValues := nv,
                                  numDecodedValues := 0, repDecoderData := rd,
                                  defDecoderData := dd, valuesData := vdata })

/-- `read_new_page` entry point over the reader's own page stream. -/
def readNewPage (s : ColumnReaderState) : Except PqError (Bool × ColumnReaderState) :=
  readNewPageGo s s.pages

/-- `has_next`: when the current page is absent or fully decoded, admit a new
page; report `false` if the stream is exhausted, else report whether the
admitted page frames any values at all. -/
def hasNext (s : ColumnReaderState) : Except PqError (Bool × ColumnReaderState) :=
  if s.numBufferedValues = 0 || s.numBufferedValues == s.numDecodedValues then
    match readNewPage s with
    | .error e => .error e
    | .ok (false, s1) => .ok (false, s1)
    | .ok (true, s1) => .ok (s1.numBufferedValues != 0, s1)
  else .ok (true, s)

/-- The `num_values` framed by the first data page of a stream (skipping
dictionary pages), if any. -/
def firstDataNumValues : List PageModel → Option Nat
  | [] => none
  | .dictionaryPage _ _ _ _ :: rest => firstDataNumValues rest
  | .dataPage _ nv _ _ _ :: _ => some nv
  | .dataPageV2 _ nv _ _ _ _ _ _ :: _ => some nv

/-- Whether the stream holds any data page framing at least one value. -/
def streamHasNonEmptyDataPage : List PageModel → Bool
  | [] => false
  | .dictionaryPage _ _ _ _ :: rest => streamHasNonEmptyDataPage rest
  | .dataPage _ nv _ _ _ :: rest => nv != 0 || streamHasNonEmptyDataPage rest
  | .dataPageV2 _ nv _ _ _ _ _ _ :: rest => nv != 0 || streamHasNonEmptyDataPage rest

/-- Modelled from the spec: `count_nulls` of the level buffer slice (module
`column::reader::decoder`, not among the sources) counts the decoded levels
marking a null, i.e. levels below the column's max definition level. -/
def countNulls (levels : List Nat) (maxLevel : Nat) : Nat :=
  (levels.filter (fun l => decide (l < maxLevel))).length

/-- The decoder behaviour one `read_batch` iteration interacts with: what the
definition level decoder yields for a request, how many repetition levels are
produced, and how many values the value decoder produces for a request. -/
structure IterOracle where
  defRead : Nat → List Nat
  repRead : Nat → Nat
  valRead : Nat → Nat

/-- The observable outcome of one successful `read_batch` iteration. -/
structure IterResult where
  numDefLevels : Nat
  nullCount : Nat
  numRepLevels : Nat
  valuesRequested : Nat
  currValuesRead : Nat
  currLevelsRead : Nat
  deriving DecidableEq, Repr

/-- The message of the level/value mismatch error. -/
def insufficientMsg (expected got : Nat) : String :=
  "insufficient values read from column - expected: " ++ toString expected ++
    ", got: " ++ toString got

/-- The message of the def/rep count mismatch error. -/
def inconsistentMsg (d r : Nat) : String :=
  "inconsistent number of levels read - def: " ++ toString d ++ ", rep: " ++ toString r

/-- One iteration of the `read_batch` loop (the body executed after
`has_next` returned `true`): clamp the iteration slice, decode definition
levels and count their nulls, decode repetition levels, check consistency,
request `iter - null_count` values, and check the produced count against
`num_def_levels - null_count` when definition levels were read. -/
def readBatchIter (maxDef maxRep : Nat) (hasDef hasRep defSet repSet : Bool)
    (o : IterOracle) (batchSize valuesRead levelsRead numBuffered numDecoded : Nat) :
    Except PqError IterResult :=
  let iterBatchSize :=
    min (min (min batchSize (numBuffered - numDecoded)) (batchSize - valuesRead))
      (batchSize - levelsRead)
  let dstep : Except PqError (Nat × Nat) :=
    if hasDef && decide (0 < maxDef) then
      if defSet then
        let lv := o.defRead iterBatchSize
        .ok (lv.length, countNulls lv maxDef)
      else .error .panicked
    else .ok (0, 0)
  match dstep with
  | .error e => .error e
  | .ok (numDef, nullCount) =>
    let rstep : Except PqError Nat :=
      if hasRep && decide (0 < maxRep) then
        if repSet then .ok (o.repRead iterBatchSize) else .error .panicked
      else .ok 0
    match rstep with
    | .error e => .error e
    | .ok numRep =>
      if numDef ≠ 0 ∧ numRep ≠ 0 ∧ numRep ≠ numDef then
        .error (.general (inconsistentMsg numDef numRep))
      else
        let valuesToRead := iterBatchSize - nullCount
        let curr := o.valRead valuesToRead
        if numDef ≠ 0 ∧ curr ≠ numDef - nullCount then
          .error (.general (insufficientMsg (numDef - nullCount) curr))
        else
          .ok { numDefLevels := numDef, nullCount := nullCount,
                numRepLevels := numRep, valuesRequested := valuesToRead,
                currValuesRead := curr, currLevelsRead := max numDef numRep }

/-- The raw page stream a `SerializedPageReader` walks: each element is what
one header-plus-payload read yields — a page of one of the three kinds, an
unknown page type to skip, or a payload that fails to decode. -/
inductive RawPage where
  | dict (numValues : Nat)
  | dataV1 (numValues : Nat)
  | dataV2 (numValues : Nat)
  | other
  | corrupt
  deriving DecidableEq, Repr

/-- A decoded page as returned to the caller of `get_next_page`. -/
inductive PageOut where
  | dictPage (numValues : Nat)
  | dataPage (numValues : Nat)
  | dataPageV2 (numValues : Nat)
  deriving DecidableEq, Repr

/-- The contribution of a returned page to `seen_num_values`: data pages add
their `num_values`, dictionary pages add nothing. -/
def dataContribution : PageOut → Nat
  | .dictPage _ => 0
  | .dataPage nv => nv
  | .dataPageV2 nv => nv

/-- `SerializedPageReader` state: the raw pages still ahead in the column
chunk's byte stream, the running count of data-page values returned, and the
chunk's total value count. -/
structure SPRState where
  stream : List RawPage
  seenNumValues : Int
  totalNumValues : Int
  deriving DecidableEq, Repr

/-- `SerializedPageReader::get_next_page`: while `seen < total`, read the next
raw page; data pages are decoded, counted into `seen_num_values` and
returned; dictionary pages are decoded and returned without counting; unknown
page types are skipped; reading past the stream is an unexpected EOF; once
`seen ≥ total` the reader reports `None`. -/
def getNextPageGo (total seen : Int) :
    List RawPage → Except PqError (Option PageOut × SPRState)
  | [] =>
    if seen < total then .error (.eof "Expected to read a page header, stream ended")
    else .ok (none, ⟨[], seen, total⟩)
  | rp :: rest =>
    if seen < total then
      match rp with
      | .dict nv => .ok (some (.dictPage nv), ⟨rest, seen, total⟩)
      | .dataV1 nv => .ok (some (.dataPage nv), ⟨rest, seen + nv, total⟩)
      | .dataV2 nv => .ok (some (.dataPageV2 nv), ⟨rest, seen + nv, total⟩)
      | .other => getNextPageGo total seen rest
      | .corrupt => .error (.general "Page decode failed")
    else .ok (none, ⟨rp :: rest, seen, total⟩)

/-- `get_next_page` over the reader's own stream and counters. -/
def getNextPage (s : SPRState) : Except PqError (Option PageOut × SPRState) :=
  getNextPageGo s.totalNumValues s.seenNumValues s.stream

/-- Repeated `get_next_page` calls, collecting the returned pages until
`None`, an error, or fuel exhaustion. -/
def collectPages (s : SPRState) : Nat → List PageOut × SPRState
  | 0 => ([], s)
  | fuel + 1 =>
    match getNextPage s with
    | .error _ => ([], s)
    | .ok (none, s1) => ([], s1)
    | .ok (some p, s1) =>
      let r := collectPages s1 fuel
      (p :: r.1, r.2)

end Parquet

/-! ## Shared helper lemmas -/

namespace ArrowTake

theorem values_length_of_wf {a : PrimArray} (h : a.wf = true) :
    a.values.length = a.len := by
  unfold PrimArray.wf at h
  simp only [Bool.and_eq_true, decide_eq_true_eq] at h
  simp [PrimArray.values]
  omega

theorem wf_nullBuf {a : PrimArray} (h : a.wf = true) {b : List Bool}
    (hb : a.nullBuf = some b) : a.off + a.len ≤ b.length := by
  unfold PrimArray.wf at h
  rw [hb] at h
  simp only [Bool.and_eq_true, decide_eq_true_eq] at h
  exact h.2

theorem getD_drop_take {b : List Bool} {off len k : Nat} (hk : k < len) (d : Bool) :
    ((b.drop off).take len).getD k d = b.getD (off + k) d := by
  rw [List.getD_eq_getElem?_getD, List.getD_eq_getElem?_getD]
  rw [List.getElem?_take, List.getElem?_drop]
  simp [hk]

theorem forall_getD_iff_mem (flags : List Bool) :
    (∀ k, k < flags.length → flags.getD k false = true) ↔ ∀ b ∈ flags, b = true := by
  constructor
  · intro h b hb
    obtain ⟨k, hk, hbk⟩ := List.mem_iff_getElem.mp hb
    have := h k hk
    rw [List.getD_eq_getElem?_getD, List.getElem?_eq_getElem hk] at this
    simpa [hbk] using this
  · intro h k hk
    rw [List.getD_eq_getElem?_getD, List.getElem?_eq_getElem hk]
    exact h _ (List.getElem_mem hk)

theorem nullCount_pos_exists {a : PrimArray} (h : 0 < a.nullCount) :
    ∃ k, k < a.len ∧ a.isValid k = false := by
  unfold PrimArray.nullCount at h
  obtain ⟨k, hk⟩ := List.exists_mem_of_ne_nil _ (List.length_pos.mp h)
  have := List.mem_filter.mp hk
  refine ⟨k, List.mem_range.mp this.1, by simpa using this.2⟩

theorem elideNulls_eq_none {flags : List Bool} :
    elideNulls flags = none ↔ ∀ b ∈ flags, b = true := by
  unfold elideNulls
  constructor
  · intro h
    by_cases hc : (flags.filter (fun b => !b)).length = 0
    · intro b hb
      rw [List.length_eq_zero, List.filter_eq_nil_iff] at hc
      simpa using hc b hb
    · simp [hc] at h
  · intro h
    have : (flags.filter (fun b => !b)) = [] := by
      rw [List.filter_eq_nil_iff]
      intro b hb
      simp [h b hb]
    simp [this]

theorem elideNulls_eq_some {flags fl : List Bool} (h : elideNulls flags = some fl) :
    fl = flags ∧ ∃ b ∈ flags, b = false := by
  unfold elideNulls at h
  by_cases hc : (flags.filter (fun b => !b)).length = 0
  · simp [hc] at h
  · simp only [hc, if_false, Option.some.injEq] at h
    rw [List.length_eq_zero] at hc
    refine ⟨h.symm, ?_⟩
    obtain ⟨b, hb⟩ := List.exists_mem_of_ne_nil _ hc
    have := List.mem_filter.mp hb
    exact ⟨b, this.1, by simpa using this.2⟩

theorem exists_getD_false_of_mem {flags : List Bool} {b : Bool} (hb : b ∈ flags)
    (hf : b = false) : ∃ k, k < flags.length ∧ flags.getD k false = false := by
  obtain ⟨k, hk, hbk⟩ := List.mem_iff_getElem.mp hb
  refine ⟨k, hk, ?_⟩
  rw [List.getD_eq_getElem?_getD, List.getElem?_eq_getElem hk]
  simp [hbk, hf]

theorem takeValuesNullsGo_length {vd : PrimArray} :
    ∀ {l : List Int} {vs : List Int} {fs : List Bool},
      takeValuesNullsGo vd l = .ok (vs, fs) → vs.length = l.length ∧ fs.length = l.length := by
  intro l
  induction l with
  | nil => intro vs fs h; simp [takeValuesNullsGo] at h; simp [h.1, h.2]
  | cons ix rest ih =>
    intro vs fs h
    unfold takeValuesNullsGo at h
    split at h
    · exact absurd h (by simp)
    · split at h
      · exact absurd h (by simp)
      · split at h
        · exact absurd h (by simp)
        · next vs' fs' hrec =>
            simp only [Except.ok.injEq, Prod.mk.injEq] at h
            have := ih hrec
            simp [← h.1, ← h.2, this.1, this.2]

theorem takeValuesIndicesNullsGo_length {vd idx : PrimArray} :
    ∀ {l : List Int} {i : Nat} {vs : List Int} {fs : List Bool},
      takeValuesIndicesNullsGo vd idx i l = .ok (vs, fs) →
        vs.length = l.length ∧ fs.length = l.length := by
  intro l
  induction l with
  | nil => intro i vs fs h; simp [takeValuesIndicesNullsGo] at h; simp [h.1, h.2]
  | cons ix rest ih =>
    intro i vs fs h
    unfold takeValuesIndicesNullsGo at h
    split at h
    · split at h
      · exact absurd h (by simp)
      · split at h
        · exact absurd h (by simp)
        · split at h
          · exact absurd h (by simp)
          · next vs' fs' hrec =>
              simp only [Except.ok.injEq, Prod.mk.injEq] at h
              have := ih hrec
              simp [← h.1, ← h.2, this.1, this.2]
    · split at h
      · exact absurd h (by simp)
      · next vs' fs' hrec =>
          simp only [Except.ok.injEq, Prod.mk.injEq] at h
          have := ih hrec
          simp [← h.1, ← h.2, this.1, this.2]

theorem takePrimitive_shape {v i : PrimArray} {r : PrimArray}
    (h : takePrimitive v i = .ok r) : r.len = i.len ∧ r.off = 0 := by
  unfold takePrimitive at h
  split at h <;> split at h <;>
    (try (exfalso; exact Except.noConfusion h)) <;>
    (injection h with h; exact ⟨by rw [← h], by rw [← h]⟩)

theorem nullCount_of_none {a : PrimArray} (h : a.nullBuf = none) : a.nullCount = 0 := by
  unfold PrimArray.nullCount
  have hv : ∀ i, a.isValid i = true := by intro i; simp [PrimArray.isValid, h]
  simp [hv]

/-- The text every bounds-failure message of `take_impl` opens with. -/
def oobTextChars : List Char := "Array index out of bounds".data

/-- Whether a message is of the `Array index out of bounds, …` shape
(checked on its first 25 characters). -/
def startsWithOobText (s : String) : Bool := s.data.take 25 == oobTextChars

end ArrowTake

/-! ## Claim theorems -/

namespace ArrowTake

/-- **C1** (code bug): null propagation fails for `take_binary` — the gather
iterates the raw index slice and never consults the index array's validity.
At values `[[0x61], [0x62]]` (no nulls) and an index array whose slot 1 is
null, the claim demands a null result at slot 1, yet the code returns a
non-null slot holding `values[0]`. -/
theorem C1_take_binary_ignores_index_validity :
    takeImpl (.bin ⟨[0, 1, 2], [97, 98], none, 0, 2⟩)
        ⟨[1, 0], some [true, false], 0, 2⟩ none =
      .ok (.bin ⟨[0, 1, 2], [98, 97], some [true, true], 0, 2⟩) ∧
    PrimArray.isValid ⟨[1, 0], some [true, false], 0, 2⟩ 1 = false ∧
    ArrowArray.isValidAt (.bin ⟨[0, 1, 2], [98, 97], some [true, true], 0, 2⟩) 1 = true :=
  ⟨rfl, rfl, rfl⟩

/-- **C2** (counterexample): `take` on a list array containing a *non-null
empty* list marks the gathered slot null, although the input index and the
designated list slot are both non-null — the code derives nullity solely from
equal adjacent output offsets. -/
theorem C2_counterexample :
    takeImpl (.list ⟨[0, 0], none, 0, 1⟩ (.prim ⟨[], none, 0, 0⟩))
        ⟨[0], none, 0, 1⟩ none =
      .ok (.list ⟨[0, 0], some [false], 0, 1⟩ (.prim ⟨[], none, 0, 0⟩)) ∧
    PrimArray.isValid ⟨[0], none, 0, 1⟩ 0 = true ∧
    ListMeta.isValid ⟨[0, 0], none, 0, 1⟩ 0 = true ∧
    ArrowArray.isValidAt
      (.list ⟨[0, 0], some [false], 0, 1⟩ (.prim ⟨[], none, 0, 0⟩)) 0 = false :=
  ⟨rfl, rfl, rfl, rfl⟩

/-- **C3** (counterexample): with `check_bounds = true`, an index that fails
the `usize` conversion (here `-1`) makes `take` fail with
`ComputeError("Cast to usize failed")`, whose message is *not* of the claimed
`Array index out of bounds, …` shape. -/
theorem C3_counterexample :
    takeImpl (.prim ⟨[5], none, 0, 1⟩) ⟨[-1], none, 0, 1⟩ (some ⟨true⟩) =
      .error (.computeError "Cast to usize failed") ∧
    startsWithOobText "Cast to usize failed" = false :=
  ⟨rfl, by decide⟩

/-- **C9**: `take_primitive` attaches a validity bitmap to its result exactly
when at least one output slot is null; even when the values array has nulls,
a gather that hits only valid slots elides the bitmap (`None`) and the
result's null count is 0. -/
theorem C9_take_primitive_null_buffer_elision (v indices r : PrimArray)
    (hwf : indices.wf = true) (h : takePrimitive v indices = .ok r) :
    (r.nullBuf = none ↔ ∀ k, k < r.len → r.isValid k = true) ∧
      (r.nullBuf = none → r.nullCount = 0) := by
  have hvlen : indices.values.length = indices.len := values_length_of_wf hwf
  unfold takePrimitive at h
  split at h
  · -- no nulls on either side
    split at h
    · exfalso; exact Except.noConfusion h
    · injection h with h
      subst h
      exact ⟨by simp [PrimArray.isValid], fun _ => nullCount_of_none rfl⟩
  · -- only the values have nulls
    split at h
    · exfalso; exact Except.noConfusion h
    · next vs fs hgo =>
        injection h with h
        subst h
        have hlen : fs.length = indices.len := by
          rw [(takeValuesNullsGo_length hgo).2, hvlen]
        cases helide : elideNulls fs with
        | none =>
          refine ⟨by simp [helide, PrimArray.isValid], fun _ => ?_⟩
          exact nullCount_of_none (by simp [helide])
        | some fl =>
          obtain ⟨hfl, b, hbmem, hbf⟩ := elideNulls_eq_some helide
          have hne : ¬((⟨vs, some fl, 0, indices.len⟩ : PrimArray).nullBuf = none) := by
            simp
          have hnotall : ¬(∀ k, k < (⟨vs, some fl, 0, indices.len⟩ : PrimArray).len →
              (⟨vs, some fl, 0, indices.len⟩ : PrimArray).isValid k = true) := by
            intro hall
            obtain ⟨k, hk, hkf⟩ := exists_getD_false_of_mem hbmem hbf
            have hk' : k < indices.len := by omega
            have hthis := hall k hk'
            simp only [PrimArray.isValid, hfl, Nat.zero_add] at hthis
            rw [hthis] at hkf
            exact Bool.noConfusion hkf
          exact ⟨⟨fun hc => absurd hc hne, fun hall => absurd hall hnotall⟩,
            fun hc => absurd hc hne⟩
  · -- only the indices have nulls
    next hv hi =>
      split at h
      · exfalso; exact Except.noConfusion h
      · next buf hgo =>
          injection h with h
          subst h
          have hpos : 0 < indices.nullCount := of_decide_eq_true hi
          obtain ⟨k, hk, hkinv⟩ := nullCount_pos_exists hpos
          cases hbuf : indices.nullBuf with
          | none => exfalso; simp [PrimArray.isValid, hbuf] at hkinv
          | some b =>
            have hne : ¬((⟨buf,
                Option.map (fun b => (b.drop indices.off).take indices.values.length) (some b),
                0, indices.len⟩ : PrimArray).nullBuf = none) := by
              simp
            have hnotall : ¬(∀ j, j < (⟨buf,
                Option.map (fun b => (b.drop indices.off).take indices.values.length) (some b),
                0, indices.len⟩ : PrimArray).len →
                (⟨buf,
                  Option.map (fun b => (b.drop indices.off).take indices.values.length) (some b),
                  0, indices.len⟩ : PrimArray).isValid j = true) := by
              intro hall
              have hthis := hall k hk
              simp only [PrimArray.isValid, Option.map_some', Nat.zero_add] at hthis
              rw [getD_drop_take (by rw [hvlen]; exact hk) false] at hthis
              have hiv : b.getD (indices.off + k) false = false := by
                simpa [PrimArray.isValid, hbuf] using hkinv
              rw [hthis] at hiv
              exact Bool.noConfusion hiv
            exact ⟨⟨fun hc => absurd hc hne, fun hall => absurd hall hnotall⟩,
              fun hc => absurd hc hne⟩
  · -- both sides have nulls
    split at h
    · exfalso; exact Except.noConfusion h
    · next vs fs hgo =>
        injection h with h
        subst h
        have hlen : fs.length = indices.len := by
          rw [(takeValuesIndicesNullsGo_length hgo).2, hvlen]
        cases helide : elideNulls fs with
        | none =>
          refine ⟨by simp [helide, PrimArray.isValid], fun _ => ?_⟩
          exact nullCount_of_none (by simp [helide])
        | some fl =>
          obtain ⟨hfl, b, hbmem, hbf⟩ := elideNulls_eq_some helide
          have hne : ¬((⟨vs, some fl, 0, indices.len⟩ : PrimArray).nullBuf = none) := by
            simp
          have hnotall : ¬(∀ k, k < (⟨vs, some fl, 0, indices.len⟩ : PrimArray).len →
              (⟨vs, some fl, 0, indices.len⟩ : PrimArray).isValid k = true) := by
            intro hall
            obtain ⟨k, hk, hkf⟩ := exists_getD_false_of_mem hbmem hbf
            have hk' : k < indices.len := by omega
            have hthis := hall k hk'
            simp only [PrimArray.isValid, hfl, Nat.zero_add] at hthis
            rw [hthis] at hkf
            exact Bool.noConfusion hkf
          exact ⟨⟨fun hc => absurd hc hne, fun hall => absurd hall hnotall⟩,
            fun hc => absurd hc hne⟩

theorem takeBinaryGo_length {v : VarBinArray} :
    ∀ {l : List Int} {items : List (Option (List Nat))},
      takeBinaryGo v l = .ok items → items.length = l.length := by
  intro l
  induction l with
  | nil => intro items h; simp [takeBinaryGo] at h; simp [h]
  | cons ix rest ih =>
    intro items h
    unfold takeBinaryGo at h
    split at h
    · exact absurd h (by simp)
    · split at h
      · split at h
        · exact absurd h (by simp)
        · split at h
          · exact absurd h (by simp)
          · next tl hrec =>
              injection h with h
              rw [← h]
              simp [ih hrec]
      · split at h
        · exact absurd h (by simp)
        · next tl hrec =>
            injection h with h
            rw [← h]
            simp [ih hrec]

theorem takeFsbGo_length {v : FsbArray} :
    ∀ {l : List Int} {items : List (Option (List Nat))},
      takeFsbGo v l = .ok items → items.length = l.length := by
  intro l
  induction l with
  | nil => intro items h; simp [takeFsbGo] at h; simp [h]
  | cons ix rest ih =>
    intro items h
    unfold takeFsbGo at h
    split at h
    · exact absurd h (by simp)
    · split at h
      · split at h
        · exact absurd h (by simp)
        · split at h
          · exact absurd h (by simp)
          · next tl hrec =>
              injection h with h
              rw [← h]
              simp [ih hrec]
      · split at h
        · exact absurd h (by simp)
        · next tl hrec =>
            injection h with h
            rw [← h]
            simp [ih hrec]

theorem takeString_len {a : VarBinArray} {i : PrimArray} {r : VarBinArray}
    (h : takeString a i = .ok r) : r.len = i.len := by
  simp only [takeString] at h
  split at h
  · split at h
    · exfalso; exact Except.noConfusion h
    · injection h with h; rw [← h]
  · split at h
    · split at h
      · exfalso; exact Except.noConfusion h
      · injection h with h; rw [← h]
    · split at h
      · split at h
        · exfalso; exact Except.noConfusion h
        · injection h with h; rw [← h]
      · split at h
        · exfalso; exact Except.noConfusion h
        · injection h with h; rw [← h]

theorem takeBinary_len {a : VarBinArray} {i : PrimArray} {r : VarBinArray}
    (h : takeBinary a i = .ok r) : r.len = i.values.length := by
  unfold takeBinary at h
  split at h
  · exfalso; exact Except.noConfusion h
  · next items hgo =>
      injection h with h
      rw [← h]
      exact takeBinaryGo_length hgo

theorem takeFixedSizeBinary_len {a : FsbArray} {i : PrimArray} {r : FsbArray}
    (h : takeFixedSizeBinary a i = .ok r) : r.len = i.values.length := by
  unfold takeFixedSizeBinary at h
  split at h
  · exfalso; exact Except.noConfusion h
  · next items hgo =>
      unfold fsbFromSparseItems at h
      split at h
      · exfalso; exact Except.noConfusion h
      · injection h with h
        rw [← h]
        exact takeFsbGo_length hgo

theorem takeBoolean_len {a : BoolArray} {i : PrimArray} {r : BoolArray}
    (h : takeBoolean a i = .ok r) : r.len = i.len := by
  unfold takeBoolean at h
  split at h
  · split at h
    · exfalso; exact Except.noConfusion h
    · injection h with h; rw [← h]
  · split at h
    · exfalso; exact Except.noConfusion h
    · split at h
      · injection h with h; rw [← h]
      · injection h with h; rw [← h]

theorem takeDecGo_length {dv : DecArray} {i : PrimArray} {l : List Nat}
    {items : List (Option Int)} (h : takeDecGo dv i l = .ok items) :
    items.length = l.length := by
  induction l generalizing items with
  | nil => simp only [takeDecGo] at h; injection h with h; rw [← h]; rfl
  | cons k rest ih =>
    simp only [takeDecGo] at h
    split at h
    · split at h
      · exfalso; exact Except.noConfusion h
      · split at h
        · split at h
          · split at h
            · exfalso; exact Except.noConfusion h
            · next tl htl =>
                injection h with h
                rw [← h]
                simp [ih htl]
          · exfalso; exact Except.noConfusion h
        · split at h
          · exfalso; exact Except.noConfusion h
          · next tl htl =>
              injection h with h
              rw [← h]
              simp [ih htl]
    · split at h
      · exfalso; exact Except.noConfusion h
      · next tl htl =>
          injection h with h
          rw [← h]
          simp [ih htl]

theorem takeDecimal128_len {a : DecArray} {i : PrimArray} {r : DecArray}
    (h : takeDecimal128 a i = .ok r) : r.len = i.len := by
  unfold takeDecimal128 at h
  split at h
  · exfalso; exact Except.noConfusion h
  · next items hgo =>
      injection h with h
      rw [← h]
      show items.length = i.len
      rw [takeDecGo_length hgo, List.length_range]

/-- **C7**: `take` on a dictionary array is the dictionary whose keys are
`take_primitive(old_keys, indices)`, whose dictionary values are shared
unchanged, and whose validity is the gathered keys' validity; its length is
the indices' length. -/
theorem C7_take_dict (keys : PrimArray) (vals : ArrowArray) (indices : PrimArray)
    (r : ArrowArray) (h : takeImpl (.dict keys vals) indices none = .ok r) :
    ∃ newKeys, takePrimitive keys indices = .ok newKeys ∧
      r = .dict newKeys vals ∧
      (∀ k, r.isValidAt k = newKeys.isValid k) ∧
      r.length = indices.len := by
  simp only [takeImpl] at h
  split at h
  · exfalso; exact Except.noConfusion h
  · next nk hk =>
      injection h with h
      refine ⟨nk, hk, h.symm, ?_, ?_⟩
      · intro k; rw [← h]; rfl
      · rw [← h]
        exact (takePrimitive_shape hk).1

/-- Witness for C7: gathering dictionary keys `[0, 1]` at indices `[1]`. -/
theorem C7_witness :
    ∃ newKeys, takePrimitive ⟨[0, 1], none, 0, 2⟩ ⟨[1], none, 0, 1⟩ = .ok newKeys ∧
      (ArrowArray.dict ⟨[1], none, 0, 1⟩ (.str ⟨[0, 1, 2], [97, 98], none, 0, 2⟩)) =
        .dict newKeys (.str ⟨[0, 1, 2], [97, 98], none, 0, 2⟩) ∧
      (∀ k, (ArrowArray.dict ⟨[1], none, 0, 1⟩
          (.str ⟨[0, 1, 2], [97, 98], none, 0, 2⟩)).isValidAt k = newKeys.isValid k) ∧
      (ArrowArray.dict ⟨[1], none, 0, 1⟩
        (.str ⟨[0, 1, 2], [97, 98], none, 0, 2⟩)).length =
        (⟨[1], none, 0, 1⟩ : PrimArray).len :=
  C7_take_dict ⟨[0, 1], none, 0, 2⟩ (.str ⟨[0, 1, 2], [97, 98], none, 0, 2⟩)
    ⟨[1], none, 0, 1⟩
    (.dict ⟨[1], none, 0, 1⟩ (.str ⟨[0, 1, 2], [97, 98], none, 0, 2⟩)) (by rfl)

/-- **C8**: for every supported variant — boolean, decimal, primitive,
string, binary, fixed-size binary, list, fixed-size list, struct,
dictionary, null — and every (well-formed) index array on which `take`
succeeds, the result's logical length equals the indices' length, including
both Null-array short-circuit paths. -/
theorem C8_take_preserves_length (v : ArrowArray) (indices : PrimArray)
    (opts : Option TakeOptions) (r : ArrowArray)
    (hwf : indices.wf = true) (h : takeImpl v indices opts = .ok r) :
    r.length = indices.len := by
  have hvlen : indices.values.length = indices.len := values_length_of_wf hwf
  cases v with
  | bool a =>
    simp only [takeImpl] at h
    split at h
    · exfalso; exact Except.noConfusion h
    · split at h
      · exfalso; exact Except.noConfusion h
      · next r' hk =>
          injection h with h
          rw [← h]
          exact takeBoolean_len hk
  | dec a =>
    simp only [takeImpl] at h
    split at h
    · exfalso; exact Except.noConfusion h
    · split at h
      · exfalso; exact Except.noConfusion h
      · next r' hk =>
          injection h with h
          rw [← h]
          exact takeDecimal128_len hk
  | fsl m child =>
    simp only [takeImpl] at h
    split at h
    · exfalso; exact Except.noConfusion h
    · split at h
      · exfalso; exact Except.noConfusion h
      · split at h
        · exfalso; exact Except.noConfusion h
        · split at h
          · exfalso; exact Except.noConfusion h
          · next flags hfl =>
              injection h with h
              rw [← h]
              rfl
  | strct meta children =>
    simp only [takeImpl] at h
    split at h
    · exfalso; exact Except.noConfusion h
    · split at h
      · exfalso; exact Except.noConfusion h
      · split at h
        · exfalso; exact Except.noConfusion h
        · next flags hfl =>
            injection h with h
            rw [← h]
            rfl
  | prim a =>
    simp only [takeImpl] at h
    split at h
    · exfalso; exact Except.noConfusion h
    · split at h
      · exfalso; exact Except.noConfusion h
      · next r' hk =>
          injection h with h
          rw [← h]
          exact (takePrimitive_shape hk).1
  | str a =>
    simp only [takeImpl] at h
    split at h
    · exfalso; exact Except.noConfusion h
    · split at h
      · exfalso; exact Except.noConfusion h
      · next r' hk =>
          injection h with h
          rw [← h]
          exact takeString_len hk
  | bin a =>
    simp only [takeImpl] at h
    split at h
    · exfalso; exact Except.noConfusion h
    · split at h
      · exfalso; exact Except.noConfusion h
      · next r' hk =>
          injection h with h
          rw [← h]
          rw [ArrowArray.length, takeBinary_len hk, hvlen]
  | fsb a =>
    simp only [takeImpl] at h
    split at h
    · exfalso; exact Except.noConfusion h
    · split at h
      · exfalso; exact Except.noConfusion h
      · next r' hk =>
          injection h with h
          rw [← h]
          rw [ArrowArray.length, takeFixedSizeBinary_len hk, hvlen]
  | list m child =>
    simp only [takeImpl] at h
    split at h
    · exfalso; exact Except.noConfusion h
    · split at h
      · exfalso; exact Except.noConfusion h
      · split at h
        · exfalso; exact Except.noConfusion h
        · next taken htk =>
            injection h with h
            rw [← h]
            rfl
  | dict keys vals =>
    simp only [takeImpl] at h
    split at h
    · exfalso; exact Except.noConfusion h
    · split at h
      · exfalso; exact Except.noConfusion h
      · next nk hk =>
          injection h with h
          rw [← h]
          exact (takePrimitive_shape hk).1
  | nullArr n =>
    simp only [takeImpl] at h
    split at h
    · exfalso; exact Except.noConfusion h
    · split at h
      · injection h with h; rw [← h]; rfl
      · injection h with h; rw [← h]; rfl

/-- Witness for C8 at a concrete primitive gather of two slots. -/
theorem C8_witness :
    (ArrowArray.prim ⟨[7, 7], none, 0, 2⟩).length = (⟨[0, 0], none, 0, 2⟩ : PrimArray).len :=
  C8_take_preserves_length (.prim ⟨[7], none, 0, 1⟩) ⟨[0, 0], none, 0, 2⟩ none
    (.prim ⟨[7, 7], none, 0, 2⟩) (by decide) (by rfl)

theorem maybeUsize_ok {i : Int} {n : Nat} (h : maybeUsize i = .ok n) :
    0 ≤ i ∧ n = i.toNat := by
  unfold maybeUsize at h
  split at h
  · injection h with h; exact ⟨‹_›, h.symm⟩
  · exact absurd h (by simp)

theorem getD_range_map {α : Type} (f : Nat → α) {len k : Nat} (h : k < len) (d : α) :
    ((List.range len).map f).getD k d = f k := by
  rw [List.getD_eq_getElem?_getD, List.getElem?_map, List.getElem?_range h]
  rfl

theorem getD_range {len k : Nat} (h : k < len) (d : Nat) :
    (List.range len).getD k d = k := by
  rw [List.getD_eq_getElem?_getD, List.getElem?_range h]
  rfl

/-- The width of the offsets window the designated list slot of output slot
`k` contributes to the gathered list: the slot's own window width for a valid
index, 0 for a null one. -/
def slotSpan (values : ListMeta) (indices : PrimArray) (k : Nat) : Int :=
  if indices.isValid k then
    values.offsets.getD (values.off + (indices.value k).toNat + 1) 0 -
      values.offsets.getD (values.off + (indices.value k).toNat) 0
  else 0

theorem tvilGo_offsets {values : ListMeta} {indices : PrimArray} :
    ∀ (ks : List Nat) (cur : Int) (li offs : List Int),
      tvilGo values indices ks cur = .ok (li, offs) →
      offs.length = ks.length ∧
        ∀ n, n < ks.length →
          (cur :: offs).getD (n + 1) 0 =
            (cur :: offs).getD n 0 + slotSpan values indices (ks.getD n 0) := by
  intro ks
  induction ks with
  | nil =>
    intro cur li offs h
    unfold tvilGo at h
    injection h with h
    injection h with h1 h2
    subst h2
    exact ⟨rfl, by intro n hn; exact absurd hn (by simp)⟩
  | cons k rest ih =>
    intro cur li offs h
    unfold tvilGo at h
    by_cases hv : indices.isValid k
    · rw [if_pos hv] at h
      split at h
      · exact absurd h (by simp)
      · next ix hmu =>
          obtain ⟨h0, hix⟩ := maybeUsize_ok hmu
          split at h
          · exact absurd h (by simp)
          · next li' offs' hrec =>
              injection h with h
              injection h with h1 h2
              subst h2
              obtain ⟨ihlen, ihstep⟩ := ih _ _ _ hrec
              refine ⟨by simp [ihlen], ?_⟩
              intro n hn
              cases n with
              | zero =>
                simp only [List.getD_cons_succ, List.getD_cons_zero, slotSpan, if_pos hv,
                  ← hix]
              | succ m =>
                simp only [List.getD_cons_succ]
                exact ihstep m (by simpa using hn)
    · rw [if_neg hv] at h
      split at h
      · exact absurd h (by simp)
      · next li' offs' hrec =>
          injection h with h
          injection h with h1 h2
          subst h2
          obtain ⟨ihlen, ihstep⟩ := ih _ _ _ hrec
          refine ⟨by simp [ihlen], ?_⟩
          intro n hn
          cases n with
          | zero =>
            simp only [List.getD_cons_succ, List.getD_cons_zero, slotSpan, if_neg hv]
            omega
          | succ m =>
            simp only [List.getD_cons_succ]
            exact ihstep m (by simpa using hn)

/-- **C2** (amended): for `take` on a variable-offset list array, the result
is null at slot `k` *iff* the result's offsets satisfy
`out_offsets[k+1] == out_offsets[k]`; given that null input lists have empty
offset ranges, a null input index or a null designated list slot each force
the result slot to be null — but the converse fails for non-null empty input
lists (see the counterexample). -/
theorem C2_amended (m : ListMeta) (child : ArrowArray) (indices : PrimArray)
    (mo : ListMeta) (taken : ArrowArray)
    (h : takeImpl (.list m child) indices none = .ok (.list mo taken))
    (hEmpty : ∀ j, j < m.len → m.isValid j = false →
      m.offsets.getD (m.off + j) 0 = m.offsets.getD (m.off + j + 1) 0) :
    ∀ k, k < indices.len →
      ((mo.isValid k = false ↔ mo.offsets.getD k 0 = mo.offsets.getD (k + 1) 0) ∧
       (indices.isValid k = false → mo.isValid k = false) ∧
       (indices.isValid k = true → (indices.value k).toNat < m.len →
         m.isValid ((indices.value k).toNat) = false → mo.isValid k = false)) := by
  simp only [takeImpl] at h
  split at h
  · exfalso; exact Except.noConfusion h
  · next li offs htv =>
      split at h
      · exfalso; exact Except.noConfusion h
      · next tk htk =>
          injection h with h
          injection h with hmo htaken
          -- invert the spec-modelled offsets builder
          unfold takeValueIndicesFromList at htv
          split at htv
          · exfalso; exact Except.noConfusion htv
          · next li0 offs0 hgo =>
              injection htv with htv
              injection htv with hli hoffs
              obtain ⟨hlen, hstep⟩ := tvilGo_offsets (List.range indices.len) 0 li0 offs0 hgo
              intro k hk
              have hklt : k < (List.range indices.len).length := by simpa using hk
              have hstepk := hstep k hklt
              rw [getD_range hk] at hstepk
              have hmoOff : mo.offsets = (0 : Int) :: offs0 := by rw [← hmo, ← hoffs]
              have hmoNull : mo.nullBuf = some (listNullFlags offs indices.len) := by
                rw [← hmo]
              have hmoOffD : mo.off = 0 := by rw [← hmo]
              have hoffs0 : offs = (0 : Int) :: offs0 := hoffs.symm
              have hvalid : mo.isValid k =
                  (mo.offsets.getD k 0 != mo.offsets.getD (k + 1) 0) := by
                rw [ListMeta.isValid, hmoNull, hmoOffD, hoffs0, ← hmoOff]
                simp only [Nat.zero_add]
                rw [listNullFlags, getD_range_map _ hk]
              have hiff : mo.isValid k = false ↔
                  mo.offsets.getD k 0 = mo.offsets.getD (k + 1) 0 := by
                rw [hvalid]
                exact bne_eq_false_iff_eq
              refine ⟨hiff, ?_, ?_⟩
              · intro hinv
                rw [hiff, hmoOff]
                have : slotSpan m indices k = 0 := by simp [slotSpan, hinv]
                rw [this] at hstepk
                omega
              · intro hval hix hslot
                rw [hiff, hmoOff]
                have : slotSpan m indices k = 0 := by
                  rw [slotSpan, if_pos hval]
                  have := hEmpty ((indices.value k).toNat) hix hslot
                  omega
                rw [this] at hstepk
                omega

/-- Witness for C2 (amended claim) at a one-slot list `[[5]]` gathered at
index 0. -/
theorem C2_witness :
    ((⟨[0, 1], some [true], 0, 1⟩ : ListMeta).isValid 0 = false ↔
      (⟨[0, 1], some [true], 0, 1⟩ : ListMeta).offsets.getD 0 0 =
        (⟨[0, 1], some [true], 0, 1⟩ : ListMeta).offsets.getD 1 0) ∧
    ((⟨[0], none, 0, 1⟩ : PrimArray).isValid 0 = false →
      (⟨[0, 1], some [true], 0, 1⟩ : ListMeta).isValid 0 = false) ∧
    ((⟨[0], none, 0, 1⟩ : PrimArray).isValid 0 = true →
      ((⟨[0], none, 0, 1⟩ : PrimArray).value 0).toNat < (⟨[0, 1], none, 0, 1⟩ : ListMeta).len →
      (⟨[0, 1], none, 0, 1⟩ : ListMeta).isValid
        (((⟨[0], none, 0, 1⟩ : PrimArray).value 0).toNat) = false →
      (⟨[0, 1], some [true], 0, 1⟩ : ListMeta).isValid 0 = false) :=
  C2_amended ⟨[0, 1], none, 0, 1⟩ (.prim ⟨[5], none, 0, 1⟩) ⟨[0], none, 0, 1⟩
    ⟨[0, 1], some [true], 0, 1⟩ (.prim ⟨[5], none, 0, 1⟩) (by rfl)
    (by intro j _ hva; simp [ListMeta.isValid] at hva) 0 (by decide)

theorem boundsCheckGo_ok_iff (len : Nat) :
    ∀ (l : List Int), boundsCheckGo len l = .ok () ↔ ∀ ix ∈ l, 0 ≤ ix ∧ ix.toNat < len := by
  intro l
  induction l with
  | nil => simp [boundsCheckGo]
  | cons ix rest ih =>
    unfold boundsCheckGo
    by_cases h0 : (0 : Int) ≤ ix
    · simp only [maybeUsize, if_pos h0]
      by_cases hlt : len ≤ ix.toNat
      · rw [if_pos hlt]
        constructor
        · intro hcon; exact absurd hcon (by simp)
        · intro hall
          have := hall ix (List.mem_cons_self ix rest)
          omega
      · rw [if_neg hlt]
        rw [ih]
        constructor
        · intro hall
          intro jx hjx
          rcases List.mem_cons.mp hjx with hjx | hjx
          · subst hjx; exact ⟨h0, by omega⟩
          · exact hall jx hjx
        · intro hall jx hjx
          exact hall jx (List.mem_cons_of_mem ix hjx)
    · simp only [maybeUsize, if_neg h0]
      constructor
      · intro hcon; exact absurd hcon (by simp)
      · intro hall
        have := hall ix (List.mem_cons_self ix rest)
        omega

theorem boundsCheckGo_error (len : Nat) :
    ∀ (l : List Int) (e : ArrowError), boundsCheckGo len l = .error e →
      e = .computeError "Cast to usize failed" ∨
        ∃ i : Nat, len ≤ i ∧ e = .computeError (oobMsg i len) := by
  intro l
  induction l with
  | nil => intro e h; simp [boundsCheckGo] at h
  | cons ix rest ih =>
    intro e h
    unfold boundsCheckGo at h
    by_cases h0 : (0 : Int) ≤ ix
    · simp only [maybeUsize, if_pos h0] at h
      by_cases hlt : len ≤ ix.toNat
      · rw [if_pos hlt] at h
        injection h with h
        exact Or.inr ⟨ix.toNat, hlt, h.symm⟩
      · rw [if_neg hlt] at h
        exact ih e h
    · simp only [maybeUsize, if_neg h0] at h
      injection h with h
      exact Or.inl h.symm

theorem oobMsg_starts (i len : Nat) : startsWithOobText (oobMsg i len) = true := by
  unfold startsWithOobText oobMsg
  simp only [String.data_append, List.append_assoc]
  rw [List.take_append_of_le_length (by decide)]
  decide

/-- **C3** (amended): with `check_bounds = true` every non-null index value is
converted and compared against the values length (when the index array has no
nulls the raw window — all of it non-null — is checked, and null slots are
never consulted): the check succeeds iff every such value is non-negative and
below the length; a failing check yields `ComputeError` with either the
message `Cast to usize failed` (conversion failure) or the
`Array index out of bounds, cannot get item at index I from N entries`
message carrying the offending index and the length; and the failing check's
error is the result of `take_impl`. -/
theorem C3_amended (len : Nat) (indices : PrimArray) :
    (boundsCheck len indices = .ok () ↔
      ∀ ix ∈ (if 0 < indices.nullCount then nonNullIndexValues indices
              else indices.values), 0 ≤ ix ∧ ix.toNat < len) ∧
    (∀ e, boundsCheck len indices = .error e →
      e = .computeError "Cast to usize failed" ∨
        ∃ i : Nat, len ≤ i ∧ e = .computeError (oobMsg i len) ∧
          startsWithOobText (oobMsg i len) = true) ∧
    (∀ (v : ArrowArray) (e : ArrowError), boundsCheck v.length indices = .error e →
      takeImpl v indices (some ⟨true⟩) = .error e) := by
  refine ⟨?_, ?_, ?_⟩
  · unfold boundsCheck
    by_cases hc : 0 < indices.nullCount
    · rw [if_pos hc, if_pos hc]
      exact boundsCheckGo_ok_iff len _
    · rw [if_neg hc, if_neg hc]
      exact boundsCheckGo_ok_iff len _
  · intro e h
    unfold boundsCheck at h
    have herr : e = .computeError "Cast to usize failed" ∨
        ∃ i : Nat, len ≤ i ∧ e = .computeError (oobMsg i len) := by
      by_cases hc : 0 < indices.nullCount
      · rw [if_pos hc] at h; exact boundsCheckGo_error len _ e h
      · rw [if_neg hc] at h; exact boundsCheckGo_error len _ e h
    rcases herr with herr | ⟨i, hi, herr⟩
    · exact Or.inl herr
    · exact Or.inr ⟨i, hi, herr, oobMsg_starts i len⟩
  · intro v e h
    cases v <;> simp [takeImpl, h]

/-- Witness for C3 (amended): a negative index under `check_bounds` yields the
`Cast to usize failed` error shape. -/
theorem C3_witness :
    ArrowError.computeError "Cast to usize failed" =
        .computeError "Cast to usize failed" ∨
      ∃ i : Nat, 1 ≤ i ∧
        ArrowError.computeError "Cast to usize failed" = .computeError (oobMsg i 1) ∧
        startsWithOobText (oobMsg i 1) = true :=
  (C3_amended 1 ⟨[-1], none, 0, 1⟩).2.1 (.computeError "Cast to usize failed") (by rfl)

/-- Witness for C9: a values array with a null gathered only at its valid
slot; the result elides the bitmap. -/
theorem C9_witness :
    ((⟨[1], none, 0, 1⟩ : PrimArray).nullBuf = none ↔
        ∀ k, k < (⟨[1], none, 0, 1⟩ : PrimArray).len →
          (⟨[1], none, 0, 1⟩ : PrimArray).isValid k = true) ∧
      ((⟨[1], none, 0, 1⟩ : PrimArray).nullBuf = none →
        (⟨[1], none, 0, 1⟩ : PrimArray).nullCount = 0) :=
  C9_take_primitive_null_buffer_elision ⟨[1, 2], some [true, false], 0, 2⟩
    ⟨[0], none, 0, 1⟩ ⟨[1], none, 0, 1⟩ (by decide) (by rfl)

end ArrowTake

namespace Parquet

theorem readI32LE_lt (buf : List Nat) : readI32LE buf < 2147483648 := by
  unfold readI32LE
  dsimp only
  split <;> omega

theorem i32AsUsize_of_nonneg {buf : List Nat} (h : 0 ≤ readI32LE buf) :
    i32AsUsize (readI32LE buf) = (readI32LE buf).toNat := by
  have hlt := readI32LE_lt buf
  unfold i32AsUsize
  rw [Int.emod_eq_of_lt h (by omega)]

/-- **C6**: `parse_v1_level` — with RLE, the first 4 bytes are a little-endian
i32 `N` giving the level byte length, the level bytes follow them, and the
consumed width is `4 + N`; with `BIT_PACKED` the consumed width is
`ceil(num_values * required_bits(max_level), 8)` taken from the start (zero
bytes when `max_level = 0`); any other level encoding fails with the
`invalid level encoding` error. -/
theorem C6_parse_v1_level (maxLevel nv : Nat) (buf : List Nat) (e : Encoding) :
    (0 ≤ readI32LE buf → 4 + (readI32LE buf).toNat ≤ buf.length →
      parseV1Level maxLevel nv .RLE buf =
        .ok (4 + (readI32LE buf).toNat, (buf.drop 4).take (readI32LE buf).toNat)) ∧
    (ceilDiv (nv * numRequiredBits maxLevel) 8 ≤ buf.length →
      parseV1Level maxLevel nv .BIT_PACKED buf =
        .ok (ceilDiv (nv * numRequiredBits maxLevel) 8,
          buf.take (ceilDiv (nv * numRequiredBits maxLevel) 8))) ∧
    (maxLevel = 0 → parseV1Level maxLevel nv .BIT_PACKED buf = .ok (0, [])) ∧
    (e ≠ .RLE → e ≠ .BIT_PACKED →
      parseV1Level maxLevel nv e buf =
        .error (.general ("invalid level encoding: " ++ encodingName e))) := by
  refine ⟨?_, ?_, ?_, ?_⟩
  · intro h0 hfit
    have hconv := i32AsUsize_of_nonneg h0
    simp only [parseV1Level, hconv]
    rw [if_pos (by omega)]
    unfold bufRange
    rw [if_pos hfit]
  · intro hfit
    simp only [parseV1Level]
    unfold bufRange
    rw [if_pos (by omega)]
    simp
  · intro h0
    subst h0
    simp [parseV1Level, numRequiredBits, ceilDiv, bufRange]
  · intro h1 h2
    cases e
    · rfl
    · exact absurd rfl h1
    · exact absurd rfl h2
    · rfl
    · rfl
    · rfl

/-- Witness for C6 at a concrete RLE page buffer `[2, 0, 0, 0, 7, 8]` and the
unsupported PLAIN level encoding. -/
theorem C6_witness :
    parseV1Level 1 10 .RLE [2, 0, 0, 0, 7, 8] = .ok (6, [7, 8]) ∧
    parseV1Level 1 10 .PLAIN [2, 0, 0, 0, 7, 8] =
      .error (.general ("invalid level encoding: " ++ encodingName .PLAIN)) := by
  have h := C6_parse_v1_level 1 10 [2, 0, 0, 0, 7, 8] .PLAIN
  exact ⟨h.1 (by decide) (by decide), h.2.2.2 (by decide) (by decide)⟩

/-- **C5**: in each `read_batch` iteration the value decoder is asked for
exactly `iter − null_count` values (`iter` the iteration slice, `null_count`
the nulls counted among the definition levels just read), and — when
definition levels were read (their count non-zero) and the def/rep counts are
consistent so the iteration reaches the value read — the iteration fails with
the `insufficient values read from column` error iff the values actually
produced differ from `num_def_levels − null_count`. -/
theorem C5_read_batch_iteration (maxDef maxRep : Nat) (hasDef hasRep defSet repSet : Bool)
    (o : IterOracle) (batchSize valuesRead levelsRead numBuffered numDecoded : Nat)
    (iter numDef nullCount numRep : Nat)
    (hiter : iter = min (min (min batchSize (numBuffered - numDecoded))
        (batchSize - valuesRead)) (batchSize - levelsRead))
    (hnumDef : numDef = if hasDef && decide (0 < maxDef) then (o.defRead iter).length else 0)
    (hnull : nullCount = if hasDef && decide (0 < maxDef)
        then countNulls (o.defRead iter) maxDef else 0)
    (hnumRep : numRep = if hasRep && decide (0 < maxRep) then o.repRead iter else 0)
    (hdset : (hasDef && decide (0 < maxDef)) = true → defSet = true)
    (hrset : (hasRep && decide (0 < maxRep)) = true → repSet = true)
    (hcons : ¬(numDef ≠ 0 ∧ numRep ≠ 0 ∧ numRep ≠ numDef)) :
    (∀ r, readBatchIter maxDef maxRep hasDef hasRep defSet repSet o batchSize
        valuesRead levelsRead numBuffered numDecoded = .ok r →
      r.valuesRequested = iter - nullCount ∧
        r.currValuesRead = o.valRead (iter - nullCount) ∧
        r.numDefLevels = numDef ∧ r.nullCount = nullCount) ∧
    (numDef ≠ 0 →
      (readBatchIter maxDef maxRep hasDef hasRep defSet repSet o batchSize
          valuesRead levelsRead numBuffered numDecoded =
        .error (.general (insufficientMsg (numDef - nullCount)
          (o.valRead (iter - nullCount)))) ↔
        o.valRead (iter - nullCount) ≠ numDef - nullCount)) := by
  subst hiter
  unfold readBatchIter
  dsimp only
  by_cases hd : (hasDef && decide (0 < maxDef)) = true
  · rw [if_pos hd, if_pos (hdset hd)]
    rw [if_pos hd] at hnumDef hnull
    dsimp only
    rw [← hnumDef, ← hnull]
    by_cases hrb : (hasRep && decide (0 < maxRep)) = true
    · rw [if_pos hrb, if_pos (hrset hrb)]
      rw [if_pos hrb] at hnumRep
      dsimp only
      rw [← hnumRep, if_neg hcons]
      refine ⟨?_, ?_⟩
      · intro r hok
        by_cases hfail : (numDef ≠ 0 ∧
            o.valRead (batchSize ⊓ (numBuffered - numDecoded) ⊓ (batchSize - valuesRead) ⊓
              (batchSize - levelsRead) - nullCount) ≠ numDef - nullCount)
        · rw [if_pos hfail] at hok
          exact absurd hok (by simp)
        · rw [if_neg hfail] at hok
          injection hok with hok
          subst hok
          exact ⟨rfl, rfl, rfl, rfl⟩
      · intro hnd
        constructor
        · intro herr
          by_cases hfail : (numDef ≠ 0 ∧
              o.valRead (batchSize ⊓ (numBuffered - numDecoded) ⊓ (batchSize - valuesRead) ⊓
                (batchSize - levelsRead) - nullCount) ≠ numDef - nullCount)
          · exact hfail.2
          · rw [if_neg hfail] at herr
            exact absurd herr (by simp)
        · intro hne
          rw [if_pos ⟨hnd, hne⟩]
    · rw [if_neg hrb]
      rw [if_neg hrb] at hnumRep
      subst hnumRep
      dsimp only
      rw [if_neg hcons]
      refine ⟨?_, ?_⟩
      · intro r hok
        by_cases hfail : (numDef ≠ 0 ∧
            o.valRead (batchSize ⊓ (numBuffered - numDecoded) ⊓ (batchSize - valuesRead) ⊓
              (batchSize - levelsRead) - nullCount) ≠ numDef - nullCount)
        · rw [if_pos hfail] at hok
          exact absurd hok (by simp)
        · rw [if_neg hfail] at hok
          injection hok with hok
          subst hok
          exact ⟨rfl, rfl, rfl, rfl⟩
      · intro hnd
        constructor
        · intro herr
          by_cases hfail : (numDef ≠ 0 ∧
              o.valRead (batchSize ⊓ (numBuffered - numDecoded) ⊓ (batchSize - valuesRead) ⊓
                (batchSize - levelsRead) - nullCount) ≠ numDef - nullCount)
          · exact hfail.2
          · rw [if_neg hfail] at herr
            exact absurd herr (by simp)
        · intro hne
          rw [if_pos ⟨hnd, hne⟩]
  · rw [if_neg hd]
    rw [if_neg hd] at hnumDef hnull
    subst hnumDef
    subst hnull
    dsimp only
    refine ⟨?_, ?_⟩
    · intro r hok
      by_cases hrb : (hasRep && decide (0 < maxRep)) = true
      · rw [if_pos hrb, if_pos (hrset hrb)] at hok
        dsimp only at hok
        split at hok
        · exfalso; exact Except.noConfusion hok
        · split at hok
          · exfalso; exact Except.noConfusion hok
          · injection hok with hok
            subst hok
            exact ⟨rfl, rfl, rfl, rfl⟩
      · rw [if_neg hrb] at hok
        dsimp only at hok
        split at hok
        · exfalso; exact Except.noConfusion hok
        · split at hok
          · exfalso; exact Except.noConfusion hok
          · injection hok with hok
            subst hok
            exact ⟨rfl, rfl, rfl, rfl⟩
    · intro hnd
      exact absurd rfl hnd

/-- Witness for C5: a full page of four non-null levels, the value decoder
producing everything requested — the failure equivalence instantiated. -/
theorem C5_witness :
    (readBatchIter 1 0 true false true false
        ⟨fun n => List.replicate n 1, fun _ => 0, fun n => n⟩ 4 0 0 4 0 =
      .error (.general (insufficientMsg (4 - 0)
        (IterOracle.valRead ⟨fun n => List.replicate n 1, fun _ => 0, fun n => n⟩ (4 - 0)))) ↔
      IterOracle.valRead ⟨fun n => List.replicate n 1, fun _ => 0, fun n => n⟩ (4 - 0) ≠ 4 - 0) :=
  (C5_read_batch_iteration 1 0 true false true false
      ⟨fun n => List.replicate n 1, fun _ => 0, fun n => n⟩ 4 0 0 4 0 4 4 0 0
      (by decide) (by decide) (by decide) (by decide)
      (fun _ => rfl) (fun h => by simp at h) (by simp)).2 (by decide)

theorem getNextPageGo_spec :
    ∀ (l : List RawPage) (total seen : Int) (r : Option PageOut × SPRState),
      getNextPageGo total seen l = .ok r →
      ((r.1 = none ↔ total ≤ seen) ∧
       (r.1 = none → r.2 = ⟨l, seen, total⟩) ∧
       (∀ p, r.1 = some p → r.2.seenNumValues = seen + dataContribution p ∧
          r.2.totalNumValues = total)) := by
  intro l
  induction l with
  | nil =>
    intro total seen r h
    unfold getNextPageGo at h
    split at h
    · exfalso; exact Except.noConfusion h
    · next hlt =>
        injection h with h
        subst h
        refine ⟨⟨fun _ => by omega, fun _ => rfl⟩, fun _ => rfl, ?_⟩
        intro p hp
        exact absurd hp (by simp)
  | cons rp rest ih =>
    intro total seen r h
    unfold getNextPageGo at h
    split at h
    · next hlt =>
        cases rp with
        | dict nv =>
          injection h with h
          subst h
          refine ⟨⟨fun hc => absurd hc (by simp), fun hc => by omega⟩, ?_, ?_⟩
          · intro hc; exact absurd hc (by simp)
          · intro p hp
            injection hp with hp
            subst hp
            exact ⟨by simp [dataContribution], rfl⟩
        | dataV1 nv =>
          injection h with h
          subst h
          refine ⟨⟨fun hc => absurd hc (by simp), fun hc => by omega⟩, ?_, ?_⟩
          · intro hc; exact absurd hc (by simp)
          · intro p hp
            injection hp with hp
            subst hp
            exact ⟨rfl, rfl⟩
        | dataV2 nv =>
          injection h with h
          subst h
          refine ⟨⟨fun hc => absurd hc (by simp), fun hc => by omega⟩, ?_, ?_⟩
          · intro hc; exact absurd hc (by simp)
          · intro p hp
            injection hp with hp
            subst hp
            exact ⟨rfl, rfl⟩
        | other =>
          obtain ⟨ih1, ih2, ih3⟩ := ih total seen r h
          refine ⟨⟨fun hc => absurd (ih1.mp hc) (by omega), fun hc => by omega⟩, ?_, ?_⟩
          · intro hc; exact absurd (ih1.mp hc) (by omega)
          · exact ih3
        | corrupt => exfalso; exact Except.noConfusion h
    · next hlt =>
        injection h with h
        subst h
        refine ⟨⟨fun _ => by omega, fun _ => rfl⟩, fun _ => rfl, ?_⟩
        intro p hp
        exact absurd hp (by simp)

/-- **C10**: `SerializedPageReader::get_next_page` returns `Ok(None)` exactly
when `seen_num_values ≥ total_num_values` held at entry (leaving the state
unchanged); each returned page advances `seen_num_values` by its
`num_values` if it is a data page and by nothing if it is a dictionary page;
hence over any run, `seen_num_values` equals its initial value plus the sum
of the `num_values` of the data pages returned. -/
theorem C10_seen_num_values :
    (∀ (s : SPRState) (r : Option PageOut × SPRState), getNextPage s = .ok r →
      ((r.1 = none ↔ s.totalNumValues ≤ s.seenNumValues) ∧
       (r.1 = none → r.2 = s) ∧
       (∀ p, r.1 = some p → r.2.seenNumValues = s.seenNumValues + dataContribution p ∧
          r.2.totalNumValues = s.totalNumValues))) ∧
    (∀ (s : SPRState) (fuel : Nat),
      (collectPages s fuel).2.seenNumValues =
        s.seenNumValues +
          ((collectPages s fuel).1.map (fun p => (dataContribution p : Int))).sum ∧
      (collectPages s fuel).2.totalNumValues = s.totalNumValues) := by
  have hone : ∀ (s : SPRState) (r : Option PageOut × SPRState), getNextPage s = .ok r →
      ((r.1 = none ↔ s.totalNumValues ≤ s.seenNumValues) ∧
       (r.1 = none → r.2 = s) ∧
       (∀ p, r.1 = some p → r.2.seenNumValues = s.seenNumValues + dataContribution p ∧
          r.2.totalNumValues = s.totalNumValues)) := by
    intro s r h
    exact getNextPageGo_spec s.stream s.totalNumValues s.seenNumValues r h
  refine ⟨hone, ?_⟩
  intro s fuel
  induction fuel generalizing s with
  | zero => simp [collectPages]
  | succ n ih =>
    unfold collectPages
    cases hg : getNextPage s with
    | error e => simp
    | ok r =>
      obtain ⟨p?, s1⟩ := r
      cases p? with
      | none =>
        have h2 := (hone s (none, s1) hg).2.1 rfl
        simp only at h2
        subst h2
        simp
      | some p =>
        obtain ⟨hseen, htot⟩ := (hone s (some p, s1) hg).2.2 p rfl
        obtain ⟨ihseen, ihtot⟩ := ih s1
        simp only [List.map_cons, List.sum_cons]
        constructor
        · rw [ihseen, hseen]; ring
        · rw [ihtot, htot]

/-- Witness for C10: a stream delivering one data page of 3 values. -/
theorem C10_witness :
    ((some (PageOut.dataPage 3) = none ↔
        (⟨[.dataV1 3], 0, 5⟩ : SPRState).totalNumValues ≤
          (⟨[.dataV1 3], 0, 5⟩ : SPRState).seenNumValues) ∧
      (some (PageOut.dataPage 3) = none →
        ((some (PageOut.dataPage 3), (⟨[], 3, 5⟩ : SPRState)).2 =
          ⟨[.dataV1 3], 0, 5⟩)) ∧
      (∀ p, some (PageOut.dataPage 3) = some p →
        (⟨[], 3, 5⟩ : SPRState).seenNumValues =
            (⟨[.dataV1 3], 0, 5⟩ : SPRState).seenNumValues + dataContribution p ∧
          (⟨[], 3, 5⟩ : SPRState).totalNumValues =
            (⟨[.dataV1 3], 0, 5⟩ : SPRState).totalNumValues)) :=
  C10_seen_num_values.1 ⟨[.dataV1 3], 0, 5⟩ (some (PageOut.dataPage 3), ⟨[], 3, 5⟩) (by rfl)

theorem readNewPageGo_ok :
    ∀ (l : List PageModel) (s : ColumnReaderState) (b : Bool) (s1 : ColumnReaderState),
      readNewPageGo s l = .ok (b, s1) →
      (b = false ∧ firstDataNumValues l = none) ∨
        (b = true ∧ firstDataNumValues l = some s1.numBufferedValues) := by
  intro l
  induction l with
  | nil =>
    intro s b s1 h
    unfold readNewPageGo at h
    injection h with h
    injection h with h1 h2
    exact Or.inl ⟨h1.symm, rfl⟩
  | cons p rest ih =>
    intro s b s1 h
    cases p with
    | dictionaryPage buf nv enc srt =>
      simp only [readNewPageGo] at h
      exact ih _ _ _ h
    | dataPage buf nv enc de re =>
      simp only [readNewPageGo] at h
      split at h
      · exfalso; exact Except.noConfusion h
      · split at h
        · exfalso; exact Except.noConfusion h
        · split at h
          · exfalso; exact Except.noConfusion h
          · injection h with h
            injection h with h1 h2
            subst h1
            subst h2
            exact Or.inr ⟨rfl, rfl⟩
    | dataPageV2 buf nv enc nn nr dl rl ic =>
      simp only [readNewPageGo] at h
      split at h
      · exfalso; exact Except.noConfusion h
      · split at h
        · exfalso; exact Except.noConfusion h
        · split at h
          · exfalso; exact Except.noConfusion h
          · split at h
            · exfalso; exact Except.noConfusion h
            · injection h with h
              injection h with h1 h2
              subst h1
              subst h2
              exact Or.inr ⟨rfl, rfl⟩

/-- **C4** (amended): when a successful `has_next` is reached, it reports
`true` iff values remain unread in the current page, or the *first* data page
of the remaining stream (the one `read_new_page` admits, skipping dictionary
pages) frames at least one value.  An empty first data page makes `has_next`
report `false` even when later pages hold values. -/
theorem C4_amended (s : ColumnReaderState) (b : Bool) (s1 : ColumnReaderState)
    (h : hasNext s = .ok (b, s1)) :
    b = true ↔
      ((s.numBufferedValues ≠ 0 ∧ s.numBufferedValues ≠ s.numDecodedValues) ∨
        ∃ n, firstDataNumValues s.pages = some n ∧ n ≠ 0) := by
  unfold hasNext at h
  split at h
  · next hc =>
      have hc' : s.numBufferedValues = 0 ∨ s.numBufferedValues = s.numDecodedValues := by
        simpa [Bool.or_eq_true, decide_eq_true_eq, beq_iff_eq] using hc
      split at h
      · exfalso; exact Except.noConfusion h
      · next s1' heq =>
          injection h with h
          injection h with h1 h2
          subst h1
          subst h2
          rcases readNewPageGo_ok _ _ _ _ heq with ⟨_, hnone⟩ | ⟨hbt, _⟩
          · constructor
            · intro hcontra; exact Bool.noConfusion hcontra
            · intro hrhs
              rcases hrhs with ⟨hne0, hnend⟩ | ⟨n, hfn, _⟩
              · rcases hc' with hc' | hc'
                · exact absurd hc' hne0
                · exact absurd hc' hnend
              · rw [hnone] at hfn; exact Option.noConfusion hfn
          · exact Bool.noConfusion hbt
      · next s1' heq =>
          injection h with h
          injection h with h1 h2
          subst h1
          subst h2
          rcases readNewPageGo_ok _ _ _ _ heq with ⟨hbf, _⟩ | ⟨_, hsome⟩
          · exact Bool.noConfusion hbf
          · constructor
            · intro hbne
              refine Or.inr ⟨s1'.numBufferedValues, hsome, ?_⟩
              simpa [bne_iff_ne] using hbne
            · intro hrhs
              rcases hrhs with ⟨hne0, hnend⟩ | ⟨n, hfn, hn0⟩
              · rcases hc' with hc' | hc'
                · exact absurd hc' hne0
                · exact absurd hc' hnend
              · rw [hsome] at hfn
                injection hfn with hfn
                simpa [bne_iff_ne, hfn] using hn0
  · next hc =>
      injection h with h
      injection h with h1 h2
      subst h1
      have hc'' : ¬(s.numBufferedValues = 0 ∨ s.numBufferedValues = s.numDecodedValues) := by
        intro hor
        exact hc (by simp [Bool.or_eq_true, decide_eq_true_eq, beq_iff_eq, hor])
      push_neg at hc''
      simp [hc'']

/-- Witness for C4 (amended) at a reader with three values still unread in
its current page. -/
theorem C4_witness :
    true = true ↔
      (((⟨0, 0, [], 5, 2, none, none, [], false⟩ : ColumnReaderState).numBufferedValues ≠ 0 ∧
        (⟨0, 0, [], 5, 2, none, none, [], false⟩ : ColumnReaderState).numBufferedValues ≠
          (⟨0, 0, [], 5, 2, none, none, [], false⟩ : ColumnReaderState).numDecodedValues) ∨
        ∃ n, firstDataNumValues
            (⟨0, 0, [], 5, 2, none, none, [], false⟩ : ColumnReaderState).pages = some n ∧
          n ≠ 0) :=
  C4_amended ⟨0, 0, [], 5, 2, none, none, [], false⟩ true
    ⟨0, 0, [], 5, 2, none, none, [], false⟩ (by rfl)

/-- **C4** (counterexample): with no values unread and a stream whose first
data page is empty but whose second holds 5 values, `has_next` reports
`false` — the reader stops at the first admitted data page instead of
searching the stream for one with values. -/
theorem C4_counterexample :
    hasNext ⟨0, 0, [.dataPage [] 0 .PLAIN .RLE .RLE, .dataPage [] 5 .PLAIN .RLE .RLE],
        0, 0, none, none, [], false⟩ =
      .ok (false, ⟨0, 0, [.dataPage [] 5 .PLAIN .RLE .RLE], 0, 0, none, none, [], false⟩) ∧
    streamHasNonEmptyDataPage
      [PageModel.dataPage [] 0 .PLAIN .RLE .RLE, PageModel.dataPage [] 5 .PLAIN .RLE .RLE] =
      true ∧
    (⟨0, 0, [.dataPage [] 0 .PLAIN .RLE .RLE, .dataPage [] 5 .PLAIN .RLE .RLE],
        0, 0, none, none, [], false⟩ : ColumnReaderState).numBufferedValues =
      (⟨0, 0, [.dataPage [] 0 .PLAIN .RLE .RLE, .dataPage [] 5 .PLAIN .RLE .RLE],
        0, 0, none, none, [], false⟩ : ColumnReaderState).numDecodedValues :=
  ⟨rfl, rfl, rfl⟩

end Parquet
